import Mathlib

/-!
Session manager with background cleaner (`5-session-cleaner/main.go`).

A shallow embedding of the `SessionManager` of `5-session-cleaner/main.go`.

Go pointers are modelled by addresses into two object tables:

* `heap`  holds the `Session` objects; a `*Session` is an index into it;
* `elems` holds the `list.Element` objects; a `*list.Element` is an index
  into it.

The `sessions` map sends a session identifier to a `*list.Element`, and the
`container/list` list `recentlyUsedSessions` is the sequence of the addresses
of the elements linked into it, front first.  Every operation that
dereferences a pointer returns `none` when the address is not allocated
(the Go runtime would stop the program with a nil dereference there).

Clock readings (`time.Now()`) and the result of `MakeSessionID()` are
arguments of the operations that use them.
-/

namespace SessionCleaner

/-! ## Time (`time.Time`, `time.Duration`) -/

/-! An instant (`time.Time`) is an `Int`: nanoseconds from an arbitrary
origin.  A `time.Duration` is an `Int` count of nanoseconds. -/

/-- The Go constant `time.Second`, in nanoseconds. -/
def Second : Int := 1000000000

/-- Largest `time.Duration` (an `int64` count of nanoseconds). -/
def maxDuration : Int := 9223372036854775807

/-- Smallest `time.Duration`. -/
def minDuration : Int := -9223372036854775808

/-- The Go function `time.Since(t)` read at the instant `now`: `now.Sub(t)`,
which saturates at the ends of the `int64` range. -/
def Since (now t : Int) : Int :=
  if now - t > maxDuration then maxDuration
  else if now - t < minDuration then minDuration
  else now - t

/-! ## Data model -/

/-- The payload `map[string]interface{}` of a session. -/
abbrev Payload := List (String × String)

/-- Go `error` values met by the session manager. -/
inductive Error where
  | ErrSessionNotFound : Error
  | other (msg : String) : Error
deriving DecidableEq, Repr

/-- The struct `Session`. -/
structure Session where
  ID : String
  Data : Payload
  lastUsed : Int
deriving DecidableEq, Repr

/-- A `list.Element`: `Value` is the `*Session` it carries, `list` tells
whether the element is owned by the list `recentlyUsedSessions`
(`e.list == l`) or by no list (`e.list == nil`). -/
structure Element where
  Value : Nat
  list : Bool
deriving DecidableEq, Repr

/-- The struct `SessionManager` together with the objects it points to.
The mutex `mu` is not part of the sequential state.  The field
`recentlyUsedSessions` is set to `list.New()` by `NewSessionManager` and never
assigned again, so it is never `nil`. -/
structure SessionManager where
  heap : List Session
  elems : List Element
  sessions : String → Option Nat
  recentlyUsedSessions : List Nat

/-- The function `NewSessionManager`: empty map, empty list. -/
def NewSessionManager : SessionManager :=
  { heap := [], elems := [], sessions := fun _ => none, recentlyUsedSessions := [] }

/-! ## `container/list` -/

/-- The method `(*List).Len`. -/
def Len (m : SessionManager) : Nat := m.recentlyUsedSessions.length

/-- The method `(*List).Back`: the last element, `nil` on an empty list. -/
def Back (m : SessionManager) : Option Nat := m.recentlyUsedSessions.getLast?

/-- The method `(*List).Front`: the first element, `nil` on an empty list. -/
def Front (m : SessionManager) : Option Nat := m.recentlyUsedSessions.head?

/-- The method `(*List).PushFront(v)`: allocates a new element carrying `v`,
owned by the list, and links it at the front. -/
def PushFront (m : SessionManager) (v : Nat) : SessionManager :=
  { m with
    elems := m.elems ++ [{ Value := v, list := true }]
    recentlyUsedSessions := m.elems.length :: m.recentlyUsedSessions }

/-- The method `(*List).MoveToFront(e)`:
`if e.list != l || l.root.next == e { return }; l.move(e, &l.root)`. -/
def MoveToFront (m : SessionManager) (e : Nat) : Option SessionManager :=
  match m.elems[e]? with
  | none => none
  | some el =>
    if el.list = false ∨ Front m = some e then some m
    else some { m with recentlyUsedSessions := e :: m.recentlyUsedSessions.erase e }

/-- The method `(*List).Remove(e)`: `if e.list == l { l.remove(e) }`, where
`remove` unlinks `e` and clears `e.list`. -/
def Remove (m : SessionManager) (e : Nat) : Option SessionManager :=
  match m.elems[e]? with
  | none => none
  | some el =>
    if el.list = true then
      some { m with
        elems := m.elems.set e { el with list := false }
        recentlyUsedSessions := m.recentlyUsedSessions.erase e }
    else some m

/-! ## Go maps -/

/-- Assignment `m[k] = v` on a Go map. -/
def mapSet (f : String → Option Nat) (k : String) (v : Nat) : String → Option Nat :=
  fun k' => if k' = k then some v else f k'

/-- Builtin `delete(m, k)` on a Go map. -/
def mapDelete (f : String → Option Nat) (k : String) : String → Option Nat :=
  fun k' => if k' = k then none else f k'

/-! ## The session manager -/

/-- Dereference `e.Value.(*Session)` for an element pointer `e`: the address
of the session and the session. -/
def sessionOf (m : SessionManager) (e : Nat) : Option (Nat × Session) :=
  match m.elems[e]? with
  | none => none
  | some el =>
    match m.heap[el.Value]? with
    | none => none
    | some s => some (el.Value, s)

/-- The method `CreateSession`.  `gen` is what `MakeSessionID()` returned and
`now` the reading of `time.Now()`.  The result is the returned pair
`(string, error)` and the store afterwards. -/
def CreateSession (m : SessionManager) (gen : String × Option Error) (now : Int) :
    (String × Option Error) × SessionManager :=
  match gen.2 with
  | some err => (("", some err), m)
  | none =>
    let sessionID := gen.1
    let session : Session := { ID := sessionID, Data := [], lastUsed := now }
    let p := m.heap.length
    let m₁ : SessionManager :=
      { m with
        heap := m.heap ++ [session]
        elems := m.elems ++ [{ Value := p, list := false }]
        sessions := mapSet m.sessions sessionID m.elems.length }
    ((sessionID, none), PushFront m₁ p)

/-- The method `GetSessionData`.  The result is the returned pair
`(map[string]interface{}, error)` (`none` for the `nil` map) and the store
afterwards; `none` when a dereference fails. -/
def GetSessionData (m : SessionManager) (sessionID : String) :
    Option ((Option Payload × Option Error) × SessionManager) :=
  match m.sessions sessionID with
  | none => some ((none, some Error.ErrSessionNotFound), m)
  | some session =>
    match sessionOf m session with
    | none => none
    | some (_, s) => some ((some s.Data, none), m)

/-- The method `UpdateSessionData`.  `now` is the reading of `time.Now()`.
The result is the returned `error` and the store afterwards; `none` when a
dereference fails.  The argument `data` is not used by the body. -/
def UpdateSessionData (m : SessionManager) (sessionID : String) (_data : Payload)
    (now : Int) : Option (Option Error × SessionManager) :=
  match m.sessions sessionID with
  | none => some (some Error.ErrSessionNotFound, m)
  | some e =>
    match sessionOf m e with
    | none => none
    | some (p, s) =>
      let m₁ : SessionManager := { m with heap := m.heap.set p { s with lastUsed := now } }
      match MoveToFront m₁ e with
      | none => none
      | some m₂ => some (none, m₂)

/-- One iteration of the loop of `backgroundCleaner`, between `Lock` and
`Unlock`.  `now₁` is the clock reading of `time.Since` in the guard of the
`if` and `now₂` the reading in the guard of the `else if`.  Both guards start
with `sm.recentlyUsedSessions != nil && sm.recentlyUsedSessions.Len() > 0`,
which is tested once here.  `none` when a dereference fails. -/
def backgroundCleaner (sm : SessionManager) (now₁ now₂ : Int) : Option SessionManager :=
  if 0 < Len sm then
    match Back sm with
    | none => none
    | some back =>
      match sessionOf sm back with
      | none => none
      | some (_, session) =>
        if Since now₁ session.lastUsed ≥ 5 * Second then
          match Remove sm back with
          | none => none
          | some sm₁ => some { sm₁ with sessions := mapDelete sm₁.sessions session.ID }
        else if Since now₂ session.lastUsed < 5 * Second then
          MoveToFront sm back
        else some sm
  else some sm

/-! ## Observations of a store -/

/-- The sessions carried by the access-order sequence, front first. -/
def listSessions (m : SessionManager) : List (Option Session) :=
  m.recentlyUsedSessions.map fun e => (sessionOf m e).map Prod.snd

/-- The identifiers of the sessions in the access-order sequence, front first. -/
def listIDs (m : SessionManager) : List (Option String) :=
  (listSessions m).map (Option.map Session.ID)

/-- The `lastUsed` stamps of the sessions in the access-order sequence, front
first. -/
def listLastUsed (m : SessionManager) : List (Option Int) :=
  (listSessions m).map (Option.map Session.lastUsed)

/-- The session the index reaches from an identifier. -/
def indexSession (m : SessionManager) (id : String) : Option Session :=
  match m.sessions id with
  | none => none
  | some e => (sessionOf m e).map Prod.snd

/-! ## Executions -/

/-- One call on the store, with the values it reads from its environment:
`create gen now` is `CreateSession()` with `MakeSessionID()` returning `gen`
and `time.Now()` returning `now`; `get id` is `GetSessionData(id)`;
`update id data now` is `UpdateSessionData(id, data)` with `time.Now()`
returning `now`; `sweep now₁ now₂` is one iteration of `backgroundCleaner`
whose guards read the clock at `now₁` (the guard that decides a removal) and
`now₂`. -/
inductive Op where
  | create (gen : String × Option Error) (now : Int) : Op
  | get (sessionID : String) : Op
  | update (sessionID : String) (data : Payload) (now : Int) : Op
  | sweep (now₁ now₂ : Int) : Op

/-- The store after one call (left as it is when the call stops on a failed
dereference). -/
def step (m : SessionManager) : Op → SessionManager
  | .create gen now => (CreateSession m gen now).2
  | .get id => ((GetSessionData m id).map Prod.snd).getD m
  | .update id data now => ((UpdateSessionData m id data now).map Prod.snd).getD m
  | .sweep now₁ now₂ => (backgroundCleaner m now₁ now₂).getD m

/-- The store after a sequence of calls, starting from `m`. -/
def runFrom (m : SessionManager) (ops : List Op) : SessionManager :=
  ops.foldl step m

/-- The store after a sequence of calls on a new session manager. -/
def run (ops : List Op) : SessionManager := runFrom NewSessionManager ops

/-- The identifiers handed out by `MakeSessionID` in a sequence of calls. -/
def createdIDs : List Op → List String
  | [] => []
  | .create (id, none) _ :: ops => id :: createdIDs ops
  | _ :: ops => createdIDs ops

/-- The clock readings of a call. -/
def Op.times : Op → List Int
  | .create _ now => [now]
  | .get _ => []
  | .update _ _ now => [now]
  | .sweep now₁ now₂ => [now₁, now₂]

/-- The clock readings of a sequence of calls, in order. -/
def clock (ops : List Op) : List Int := ops.flatMap Op.times

/-- The clock never goes back during the calls. -/
def ClockMonotone (ops : List Op) : Prop := (clock ops).Pairwise (· ≤ ·)

instance (ops : List Op) : Decidable (ClockMonotone ops) := by
  unfold ClockMonotone; infer_instance

/-- The sequence is ordered from most recently to least recently used: the
`lastUsed` stamps never increase from front to back. -/
def AccessOrdered (m : SessionManager) : Prop :=
  (listLastUsed m).reduceOption.Pairwise fun x y => y ≤ x

instance (m : SessionManager) : Decidable (AccessOrdered m) := by
  unfold AccessOrdered; infer_instance

/-! ## Invariants -/

/-- The representation invariant of `container/list`: every element linked
into the list is allocated and is owned by the list (`e.list == l`). -/
def WellFormed (m : SessionManager) : Prop :=
  ∀ e ∈ m.recentlyUsedSessions, ∃ el, m.elems[e]? = some el ∧ el.list = true

/-- The index/sequence invariant: the sessions of the sequence are allocated,
their identifiers are pairwise different, and an identifier is a key of the
index `sessions` exactly when a session of the sequence has it. -/
def IndexMatchesSequence (m : SessionManager) : Prop :=
  ∃ ids : List String, listIDs m = ids.map some ∧ ids.Nodup ∧
    ∀ id, m.sessions id ≠ none ↔ id ∈ ids

/-- What holds of a store built by `CreateSession` with identifiers taken
from `U`, no identifier used twice: the handle the index keeps for an
identifier is an element owned by no list that carries the same `*Session`
as one element of the sequence. -/
structure Reach (m : SessionManager) (U : List String) : Prop where
  nodup : m.recentlyUsedSessions.Nodup
  owned : ∀ e ∈ m.recentlyUsedSessions, ∃ p s, m.elems[e]? = some ⟨p, true⟩ ∧
    m.heap[p]? = some s ∧ s.ID ∈ U ∧
    ∃ e', m.sessions s.ID = some e' ∧ m.elems[e']? = some ⟨p, false⟩
  index : ∀ id e', m.sessions id = some e' → ∃ p s, m.elems[e']? = some ⟨p, false⟩ ∧
    m.heap[p]? = some s ∧ s.ID = id ∧
    ∃ e ∈ m.recentlyUsedSessions, m.elems[e]? = some ⟨p, true⟩
  inj : ∀ e₁ ∈ m.recentlyUsedSessions, ∀ e₂ ∈ m.recentlyUsedSessions,
    ∀ p₁ s₁ p₂ s₂, sessionOf m e₁ = some (p₁, s₁) → sessionOf m e₂ = some (p₂, s₂) →
      s₁.ID = s₂.ID → e₁ = e₂

/-- A session is stale at the instant `now`: `now - lastUsed` is at least 5
seconds. -/
def stale (now : Int) (s : Session) : Bool := decide (5 * Second ≤ now - s.lastUsed)

/-- A session is fresh at the instant `now`: `now - lastUsed` is below 5
seconds. -/
def fresh (now : Int) (s : Session) : Bool := !stale now s

/-- The store after `k` iterations of the cleaner in a row, all at the
instant `now`; `none` when one of them stops on a failed dereference. -/
def sweeps (now : Int) : Nat → SessionManager → Option SessionManager
  | 0, m => some m
  | k + 1, m => (backgroundCleaner m now now).bind (sweeps now k)

/-- The number of cleaner iterations in a sequence of calls. -/
def sweepCount : List Op → Nat
  | [] => 0
  | .sweep _ _ :: ops => 1 + sweepCount ops
  | _ :: ops => sweepCount ops

/-- The `lastUsed` stamp of the session carried by the element `e` (0 when
the element or its session is not allocated). -/
def stampOf (m : SessionManager) (e : Nat) : Int :=
  match sessionOf m e with
  | some (_, s) => s.lastUsed
  | none => 0

/-- How many cleaner iterations an entry with the stamp `stamp` can take up,
between the instant `c` and the instant `T` plus 7 seconds, when it is at the
back: 2 when its 5-second mark lies after `c` and not after `T` plus 7
seconds (one iteration may read the clock on either side of the mark and
leave the store unchanged, the next one removes the entry), 1 otherwise. -/
def weight (T c stamp : Int) : Nat :=
  if c < stamp + 5 * Second ∧ stamp + 5 * Second ≤ T + 7 * Second then 2 else 1

/-- The cleaner iterations the entries `B` can take up between the instant
`c` and the instant `T` plus 7 seconds. -/
def potential (m : SessionManager) (T c : Int) (B : List Nat) : Nat :=
  (B.map fun b => weight T c (stampOf m b)).sum

/-- The session with the identifier `id` is in the sequence, its `lastUsed`
stamp is `T`, and `d` entries stand between it and the back of the
sequence. -/
def AtDistance (m : SessionManager) (id : String) (T : Int) (d : Nat) : Prop :=
  ∃ A B e p s, m.recentlyUsedSessions = A ++ e :: B ∧ m.elems[e]? = some ⟨p, true⟩ ∧
    m.heap[p]? = some s ∧ s.ID = id ∧ s.lastUsed = T ∧ B.length = d

/-- The number of entries after the first entry `some id` of a list (0 when
there is none). -/
def behindIn (id : String) : List (Option String) → Nat
  | [] => 0
  | x :: xs => if x = some id then xs.length else behindIn id xs

/-- The number of entries that stand between the session with the identifier
`id` and the back of the sequence. -/
def entriesBehind (m : SessionManager) (id : String) : Nat :=
  behindIn id (listIDs m)

/-- The session with the identifier `id` is in the sequence, its `lastUsed`
stamp is `T`, and the entries between it and the back of the sequence can take
up at most `k` cleaner iterations between the instant `c` and the instant `T`
plus 7 seconds. -/
def Behind (m : SessionManager) (id : String) (T c : Int) (k : Nat) : Prop :=
  ∃ A B e p s, m.recentlyUsedSessions = A ++ e :: B ∧ m.elems[e]? = some ⟨p, true⟩ ∧
    m.heap[p]? = some s ∧ s.ID = id ∧ s.lastUsed = T ∧ potential m T c B ≤ k

/-- A store used to instantiate the statements on single iterations: the
sessions "a" and "b" created at the instants 0 and 1. -/
def sampleStore : SessionManager := run [.create ("a", none) 0, .create ("b", none) 1]

end SessionCleaner

/-!
Limited service time (`3-limit-service-time/main.go`).

A shallow embedding of `HandleRequest`.  The goroutine that runs `process()`,
the ticker and the `select` are represented by what they let the function
observe: which case the `select` takes, and the time the deferred function
measures with `time.Since(startedAt)`.  The embedding describes the calls
that return or stop in a panic of `time.NewTicker`.
-/

namespace LimitServiceTime

/-- The Go constant `time.Second`, in nanoseconds. -/
def Second : Int := 1000000000

/-- Arithmetic on `int64` wraps around: the value of an `int64` expression
whose mathematical value is `x`. -/
def toInt64 (x : Int) : Int :=
  (x + 9223372036854775808) % 18446744073709551616 - 9223372036854775808

/-- The struct `User`. -/
structure User where
  ID : Int
  IsPremium : Bool
  TimeUsed : Int
deriving DecidableEq, Repr

/-- The case the `select` statement takes. -/
inductive Case where
  | ticker : Case
  | processChan : Case
deriving DecidableEq, Repr

/-- What the surroundings decide during one call: the case taken by the
`select` (read for users that are not premium) and the duration, in
nanoseconds, that `time.Since(startedAt)` returns in the deferred function. -/
structure Env where
  fired : Case
  elapsed : Int
deriving DecidableEq, Repr

/-- What one call of `HandleRequest` did: the returned boolean, the user
afterwards, the durations handed to `time.NewTicker` in order, the duration
of the ticker the variable `ticker` holds at the `select`, whether the
goroutine running `process()` was started, whether the call returned after
receiving from `processChan`, and the time the deferred function measured
(0 when it was not registered). -/
structure Outcome where
  result : Bool
  user : User
  tickers : List Int
  ticker : Option Int
  started : Bool
  received : Bool
  ran : Int
deriving DecidableEq, Repr

/-- The Go function `time.NewTicker(d)`, which panics when `d` is not
positive: the duration of the new ticker, `none` for the panic. -/
def NewTicker (d : Int) : Option Int :=
  if d ≤ 0 then none else some d

/-- The integer nearest to `a / b`, a tie going to the even one: the rounding
of every `float64` operation. -/
def roundHalfEven (a b : Nat) : Nat :=
  if 2 * (a % b) < b then a / b
  else if b < 2 * (a % b) then a / b + 1
  else if (a / b) % 2 = 0 then a / b
  else a / b + 1

/-- The number of binary digits of `n`, counted with at most `fuel` halvings. -/
def bitLengthAux : Nat → Nat → Nat
  | 0, _ => 0
  | fuel + 1, n => if n = 0 then 0 else 1 + bitLengthAux fuel (n / 2)

/-- The number of binary digits of `n`. -/
def bitLength (n : Nat) : Nat := bitLengthAux n n

/-- The value `int64(d.Seconds())` for a duration of `a` nanoseconds that is
not negative.  The method `Seconds` computes, in `float64`,
`float64(sec) + float64(nsec)/1e9` with `sec := d / Second` and
`nsec := d % Second`.  The quotient `float64(nsec)/1e9` is the multiple
`M / 2^s` of a power of two with a mantissa `M` of 53 bits nearest to
`nsec / 10^9` (`s` is the greatest exponent with `nsec * 2^s` below
`2^53 * 10^9`); the sum is the exact sum `N / 2^s` with its mantissa rounded
to 53 bits; `int64` drops the fraction.  (`float64(sec)` and `float64(nsec)`
are exact for an `int64` duration.) -/
def wholeSecondsNat (a : Nat) : Nat :=
  let sec := a / 1000000000
  let nsec := a % 1000000000
  if nsec = 0 then sec
  else
    let s := bitLength ((2 ^ 53 * 1000000000 - 1) / nsec) - 1
    let M := roundHalfEven (nsec * 2 ^ s) 1000000000
    let N := sec * 2 ^ s + M
    let k := bitLength N - 53
    let R := roundHalfEven N (2 ^ k) * 2 ^ k
    R / 2 ^ s

/-- The conversion `int64(d.Seconds())` of a duration `d` in nanoseconds (an
`int64`): `d / Second` and `d % Second` carry the sign of `d`, and the
`float64` operations round a number and its opposite alike. -/
def wholeSeconds (d : Int) : Int :=
  if d < 0 then -((wholeSecondsNat d.natAbs : Nat) : Int)
  else ((wholeSecondsNat d.natAbs : Nat) : Int)

/-- The function `HandleRequest`, for the user `u` (the argument is a
pointer; the outcome holds the user afterwards).  `none` when
`time.NewTicker` panics. -/
def HandleRequest (u : User) (env : Env) : Option Outcome :=
  if u.IsPremium = false ∧ u.TimeUsed ≥ 10 then
    some { result := false, user := u, tickers := [], ticker := none,
           started := false, received := false, ran := 0 }
  else
    match NewTicker (10 * Second) with
    | none => none
    | some first =>
      let created : Option (Int × List Int) :=
        if u.IsPremium = false then
          let tickerDuration : Int :=
            if 10 ≥ u.TimeUsed then toInt64 (10 - u.TimeUsed) else 0
          match NewTicker (toInt64 (tickerDuration * Second)) with
          | none => none
          | some second => some (second, [first, second])
        else some (first, [first])
      match created with
      | none => none
      | some (ticker, tickers) =>
        let after : User :=
          { u with TimeUsed := toInt64 (u.TimeUsed + wholeSeconds env.elapsed) }
        if u.IsPremium = false then
          match env.fired with
          | .ticker =>
            some { result := true, user := after, tickers := tickers, ticker := some ticker,
                   started := true, received := false, ran := env.elapsed }
          | .processChan =>
            some { result := true, user := after, tickers := tickers, ticker := some ticker,
                   started := true, received := true, ran := env.elapsed }
        else
          some { result := true, user := after, tickers := tickers, ticker := some ticker,
                 started := true, received := true, ran := env.elapsed }

/-- Calls of `HandleRequest` for the same user, one after the other: the
outcomes of the calls. -/
def HandleRequests (u : User) : List Env → Option (List Outcome)
  | [] => some []
  | env :: envs =>
    match HandleRequest u env with
    | none => none
    | some o =>
      match HandleRequests o.user envs with
      | none => none
      | some os => some (o :: os)

/-- The running time granted by a sequence of calls. -/
def totalRan (os : List Outcome) : Int := (os.map Outcome.ran).sum

/-- Every started request ran for at most the duration of its timer. -/
def WithinTimers (os : List Outcome) : Prop :=
  ∀ o ∈ os, ∀ d, o.ticker = some d → o.ran ≤ d

instance (os : List Outcome) : Decidable (WithinTimers os) := by
  unfold WithinTimers; infer_instance

end LimitServiceTime

namespace SessionCleaner

/-! ## Lookups in the object tables -/

theorem getElem?_append_length {α : Type} (l : List α) (a : α) (r : List α) :
    (l ++ a :: r)[l.length]? = some a := by
  rw [List.getElem?_append_right (le_refl _)]; simp

theorem getElem?_append_length_succ {α : Type} (l : List α) (a b : α) (r : List α) :
    (l ++ a :: b :: r)[l.length + 1]? = some b := by
  rw [List.getElem?_append_right (by omega)]; simp

theorem getElem?_append_of_some {α : Type} (l r : List α) (i : Nat) (a : α)
    (h : l[i]? = some a) : (l ++ r)[i]? = some a := by
  have hi : i < l.length := by
    by_contra hc
    rw [List.getElem?_eq_none (by omega)] at h
    exact Option.noConfusion h
  rw [List.getElem?_append_left hi]; exact h

theorem sessionOf_eq {m : SessionManager} {e p : Nat} {b : Bool} {s : Session}
    (he : m.elems[e]? = some ⟨p, b⟩) (hp : m.heap[p]? = some s) :
    sessionOf m e = some (p, s) := by
  simp [sessionOf, he, hp]

theorem sessionOf_some {m : SessionManager} {e p : Nat} {s : Session}
    (h : sessionOf m e = some (p, s)) :
    ∃ b, m.elems[e]? = some ⟨p, b⟩ ∧ m.heap[p]? = some s := by
  unfold sessionOf at h
  cases he : m.elems[e]? with
  | none => rw [he] at h; exact Option.noConfusion h
  | some el =>
    rw [he] at h
    dsimp only at h
    cases hp : m.heap[el.Value]? with
    | none => rw [hp] at h; exact Option.noConfusion h
    | some s' =>
      rw [hp] at h
      simp only [Option.some.injEq, Prod.mk.injEq] at h
      obtain ⟨h1, h2⟩ := h
      subst h1; subst h2
      exact ⟨el.list, rfl, hp⟩

/-! ## The store after each call -/

/-- A read returns the store it was given. -/
theorem GetSessionData_store (m : SessionManager) (id : String) :
    (GetSessionData m id).map Prod.snd = (GetSessionData m id).map fun _ => m := by
  unfold GetSessionData
  cases m.sessions id with
  | none => rfl
  | some e =>
    simp only
    cases sessionOf m e <;> rfl

theorem step_get (m : SessionManager) (id : String) : step m (.get id) = m := by
  have h := GetSessionData_store m id
  simp only [step]
  cases hg : GetSessionData m id with
  | none => rfl
  | some r => rw [hg] at h; simpa using h

theorem runFrom_gets (m : SessionManager) (ids : List String) :
    runFrom m (ids.map Op.get) = m := by
  induction ids with
  | nil => rfl
  | cons id ids ih => simpa [runFrom, step_get] using ih


theorem CreateSession_store (m : SessionManager) (id : String) (now : Int) :
    (CreateSession m (id, none) now).2 =
      { heap := m.heap ++ [⟨id, [], now⟩]
        elems := m.elems ++ [⟨m.heap.length, false⟩, ⟨m.heap.length, true⟩]
        sessions := mapSet m.sessions id m.elems.length
        recentlyUsedSessions := (m.elems.length + 1) :: m.recentlyUsedSessions } := by
  simp [CreateSession, PushFront]

theorem lt_of_getElem?_eq_some {α : Type} {l : List α} {i : Nat} {a : α}
    (h : l[i]? = some a) : i < l.length := by
  by_contra hc
  rw [List.getElem?_eq_none (by omega)] at h
  exact Option.noConfusion h

theorem Reach.create {m : SessionManager} {U : List String} (h : Reach m U)
    {id : String} (hid : id ∉ U) (now : Int) :
    Reach (CreateSession m (id, none) now).2 (id :: U) := by
  rw [CreateSession_store]
  have hnew : m.elems.length + 1 ∉ m.recentlyUsedSessions := by
    intro hmem
    obtain ⟨p, s, he, _⟩ := h.owned _ hmem
    have := lt_of_getElem?_eq_some he
    omega
  refine ⟨?_, ?_, ?_, ?_⟩
  · exact List.nodup_cons.mpr ⟨hnew, h.nodup⟩
  · intro e he
    rcases List.mem_cons.mp he with rfl | he
    · refine ⟨m.heap.length, ⟨id, [], now⟩, getElem?_append_length_succ _ _ _ _,
        getElem?_append_length _ _ _, List.mem_cons_self _ _, m.elems.length, ?_,
        getElem?_append_length _ _ _⟩
      simp [mapSet]
    · obtain ⟨p, s, he, hp, hU, e', hs, he'⟩ := h.owned e he
      refine ⟨p, s, getElem?_append_of_some _ _ _ _ he, getElem?_append_of_some _ _ _ _ hp,
        List.mem_cons_of_mem _ hU, e', ?_, getElem?_append_of_some _ _ _ _ he'⟩
      have hne : s.ID ≠ id := fun hc => hid (hc ▸ hU)
      simp [mapSet, hne, hs]
  · intro id₀ e₀ hs
    by_cases hc : id₀ = id
    · subst hc
      have he₀ : e₀ = m.elems.length := by simpa [mapSet] using hs.symm
      subst he₀
      exact ⟨m.heap.length, ⟨id₀, [], now⟩, getElem?_append_length _ _ _,
        getElem?_append_length _ _ _, rfl, m.elems.length + 1, List.mem_cons_self _ _,
        getElem?_append_length_succ _ _ _ _⟩
    · have hs' : m.sessions id₀ = some e₀ := by simpa [mapSet, hc] using hs
      obtain ⟨p, s, he, hp, hID, e, hmem, hel⟩ := h.index id₀ e₀ hs'
      exact ⟨p, s, getElem?_append_of_some _ _ _ _ he, getElem?_append_of_some _ _ _ _ hp,
        hID, e, List.mem_cons_of_mem _ hmem, getElem?_append_of_some _ _ _ _ hel⟩
  · have hold : ∀ e ∈ m.recentlyUsedSessions, ∀ p s,
        sessionOf (⟨m.heap ++ [⟨id, [], now⟩],
          m.elems ++ [⟨m.heap.length, false⟩, ⟨m.heap.length, true⟩],
          mapSet m.sessions id m.elems.length,
          (m.elems.length + 1) :: m.recentlyUsedSessions⟩ : SessionManager) e = some (p, s) →
        sessionOf m e = some (p, s) ∧ s.ID ∈ U := by
      intro e he p s hs
      obtain ⟨p', s', hel, hp, hU, _⟩ := h.owned e he
      have h' := sessionOf_eq (m := ⟨m.heap ++ [⟨id, [], now⟩],
          m.elems ++ [⟨m.heap.length, false⟩, ⟨m.heap.length, true⟩],
          mapSet m.sessions id m.elems.length,
          (m.elems.length + 1) :: m.recentlyUsedSessions⟩)
        (getElem?_append_of_some _ _ _ _ hel) (getElem?_append_of_some _ _ _ _ hp)
      rw [h'] at hs
      simp only [Option.some.injEq, Prod.mk.injEq] at hs
      obtain ⟨rfl, rfl⟩ := hs
      exact ⟨sessionOf_eq hel hp, hU⟩
    have hfresh : ∀ p s,
        sessionOf (⟨m.heap ++ [⟨id, [], now⟩],
          m.elems ++ [⟨m.heap.length, false⟩, ⟨m.heap.length, true⟩],
          mapSet m.sessions id m.elems.length,
          (m.elems.length + 1) :: m.recentlyUsedSessions⟩ : SessionManager)
          (m.elems.length + 1) = some (p, s) → s.ID = id := by
      intro p s hs
      have h' := sessionOf_eq (m := ⟨m.heap ++ [⟨id, [], now⟩],
          m.elems ++ [⟨m.heap.length, false⟩, ⟨m.heap.length, true⟩],
          mapSet m.sessions id m.elems.length,
          (m.elems.length + 1) :: m.recentlyUsedSessions⟩)
        (getElem?_append_length_succ m.elems ⟨m.heap.length, false⟩ ⟨m.heap.length, true⟩ [])
        (getElem?_append_length m.heap ⟨id, [], now⟩ [])
      rw [h'] at hs
      simp only [Option.some.injEq, Prod.mk.injEq] at hs
      obtain ⟨_, rfl⟩ := hs
      rfl
    intro e₁ he₁ e₂ he₂ p₁ s₁ p₂ s₂ hs₁ hs₂ hID
    rcases List.mem_cons.mp he₁ with rfl | he₁ <;> rcases List.mem_cons.mp he₂ with rfl | he₂
    · rfl
    · exfalso
      have h1 := hfresh _ _ hs₁
      have h2 := (hold _ he₂ _ _ hs₂).2
      exact hid (h1 ▸ hID ▸ h2)
    · exfalso
      have h1 := hfresh _ _ hs₂
      have h2 := (hold _ he₁ _ _ hs₁).2
      exact hid (h1 ▸ hID.symm ▸ h2)
    · exact h.inj e₁ he₁ e₂ he₂ p₁ s₁ p₂ s₂ (hold _ he₁ _ _ hs₁).1 (hold _ he₂ _ _ hs₂).1 hID

theorem heap_set_same {l : List Session} {p : Nat} {s : Session} (s' : Session)
    (h : l[p]? = some s) : (l.set p s')[p]? = some s' := by
  have := lt_of_getElem?_eq_some h
  simp [List.getElem?_set, this]

theorem heap_set_forward {l : List Session} {p : Nat} {s s' : Session}
    (hp : l[p]? = some s) (hID : s'.ID = s.ID) {q : Nat} {t : Session}
    (hq : l[q]? = some t) :
    ∃ t', (l.set p s')[q]? = some t' ∧ t'.ID = t.ID ∧ (q ≠ p → t' = t) := by
  by_cases hc : q = p
  · subst hc
    rw [hp] at hq
    cases hq
    exact ⟨s', heap_set_same s' hp, hID, fun h => absurd rfl h⟩
  · exact ⟨t, by rw [List.getElem?_set_ne (Ne.symm hc)]; exact hq, rfl, fun _ => rfl⟩

theorem heap_set_backward {l : List Session} {p : Nat} {s s' : Session}
    (hp : l[p]? = some s) (hID : s'.ID = s.ID) {q : Nat} {t' : Session}
    (hq : (l.set p s')[q]? = some t') :
    ∃ t, l[q]? = some t ∧ t'.ID = t.ID := by
  by_cases hc : q = p
  · subst hc
    rw [heap_set_same s' hp] at hq
    cases hq
    exact ⟨s, hp, hID⟩
  · rw [List.getElem?_set_ne (Ne.symm hc)] at hq
    exact ⟨t', hq, rfl⟩

theorem Reach.setHeap {m : SessionManager} {U : List String} (h : Reach m U)
    {p : Nat} {s s' : Session} (hp : m.heap[p]? = some s) (hID : s'.ID = s.ID) :
    Reach { m with heap := m.heap.set p s' } U := by
  refine ⟨h.nodup, ?_, ?_, ?_⟩
  · intro e he
    obtain ⟨q, t, hel, hq, hU, e', hs, he'⟩ := h.owned e he
    obtain ⟨t', ht', htID, _⟩ := heap_set_forward hp hID hq
    exact ⟨q, t', hel, ht', htID ▸ hU, e', htID ▸ hs, he'⟩
  · intro id e' hs
    obtain ⟨q, t, hel, hq, htID, e, he, hel'⟩ := h.index id e' hs
    obtain ⟨t', ht', htID', _⟩ := heap_set_forward hp hID hq
    exact ⟨q, t', hel, ht', htID'.trans htID, e, he, hel'⟩
  · intro e₁ he₁ e₂ he₂ p₁ s₁ p₂ s₂ hs₁ hs₂ hIDs
    obtain ⟨b₁, hel₁, hq₁⟩ := sessionOf_some hs₁
    obtain ⟨b₂, hel₂, hq₂⟩ := sessionOf_some hs₂
    obtain ⟨t₁, ht₁, hID₁⟩ := heap_set_backward hp hID hq₁
    obtain ⟨t₂, ht₂, hID₂⟩ := heap_set_backward hp hID hq₂
    exact h.inj e₁ he₁ e₂ he₂ p₁ t₁ p₂ t₂ (sessionOf_eq hel₁ ht₁) (sessionOf_eq hel₂ ht₂)
      (hID₁ ▸ hID₂ ▸ hIDs)

/-- On a store built by `CreateSession`, `UpdateSessionData` of a known
identifier stamps the session and leaves the sequence as it is: the handle of
the index is owned by no list, so `MoveToFront` returns at once. -/
theorem UpdateSessionData_of_reach {m : SessionManager} {U : List String} (h : Reach m U)
    {id : String} {e' : Nat} (hs : m.sessions id = some e') (data : Payload) (now : Int) :
    ∃ p s, m.elems[e']? = some ⟨p, false⟩ ∧ m.heap[p]? = some s ∧ s.ID = id ∧
      UpdateSessionData m id data now =
        some (none, { m with heap := m.heap.set p { s with lastUsed := now } }) := by
  obtain ⟨p, s, hel, hp, hID, _⟩ := h.index id e' hs
  refine ⟨p, s, hel, hp, hID, ?_⟩
  have hel' : ({ m with heap := m.heap.set p { s with lastUsed := now } } :
      SessionManager).elems[e']? = some ⟨p, false⟩ := hel
  simp only [UpdateSessionData, hs, sessionOf_eq hel hp, MoveToFront, hel', true_or, if_true]

theorem backgroundCleaner_of_nil {m : SessionManager} (h : m.recentlyUsedSessions = [])
    (now₁ now₂ : Int) : backgroundCleaner m now₁ now₂ = some m := by
  simp [backgroundCleaner, Len, h]

/-- The three outcomes of one iteration of the cleaner on a store whose back
element `back` is owned by the list and carries the session `s`. -/
theorem backgroundCleaner_of_back {m : SessionManager} {back p : Nat} {s : Session}
    (hb : Back m = some back) (hel : m.elems[back]? = some ⟨p, true⟩)
    (hp : m.heap[p]? = some s) (now₁ now₂ : Int) :
    backgroundCleaner m now₁ now₂ =
      if Since now₁ s.lastUsed ≥ 5 * Second then
        some { m with
          elems := m.elems.set back ⟨p, false⟩
          recentlyUsedSessions := m.recentlyUsedSessions.erase back
          sessions := mapDelete m.sessions s.ID }
      else if Since now₂ s.lastUsed < 5 * Second then
        some (if Front m = some back then m
          else { m with recentlyUsedSessions := back :: m.recentlyUsedSessions.erase back })
      else some m := by
  have hlen : 0 < Len m := by
    unfold Len
    unfold Back at hb
    cases hl : m.recentlyUsedSessions with
    | nil => rw [hl] at hb; exact Option.noConfusion hb
    | cons a l => simp
  simp only [backgroundCleaner, hlen, if_true, hb, sessionOf_eq hel hp, Remove, MoveToFront, hel]
  split_ifs <;> simp_all

theorem sessionOf_set_flag (m : SessionManager) {back p : Nat} {b : Bool}
    (hel : m.elems[back]? = some ⟨p, b⟩) (b' : Bool) (l : List Nat)
    (f : String → Option Nat) (e : Nat) :
    sessionOf { m with elems := m.elems.set back ⟨p, b'⟩, recentlyUsedSessions := l,
                       sessions := f } e = sessionOf m e := by
  unfold sessionOf
  by_cases hc : e = back
  · subst hc
    have hlt := lt_of_getElem?_eq_some hel
    simp [List.getElem?_set, hlt, hel]
  · simp only [List.getElem?_set_ne (Ne.symm hc)]

theorem Reach.remove {m : SessionManager} {U : List String} (h : Reach m U)
    {back p : Nat} {s : Session} (hmem : back ∈ m.recentlyUsedSessions)
    (hel : m.elems[back]? = some ⟨p, true⟩) (hp : m.heap[p]? = some s) :
    Reach { m with
      elems := m.elems.set back ⟨p, false⟩
      recentlyUsedSessions := m.recentlyUsedSessions.erase back
      sessions := mapDelete m.sessions s.ID } U := by
  have hback := sessionOf_eq hel hp
  have hkeep : ∀ e (el : Element), e ≠ back → m.elems[e]? = some el →
      (m.elems.set back ⟨p, false⟩)[e]? = some el := by
    intro e el hne he
    rw [List.getElem?_set_ne (Ne.symm hne)]; exact he
  refine ⟨h.nodup.erase _, ?_, ?_, ?_⟩
  · intro e he
    obtain ⟨hne, he⟩ := (h.nodup.mem_erase_iff).mp he
    obtain ⟨q, t, hq, ht, hU, e', hs, he'⟩ := h.owned e he
    have hIDne : t.ID ≠ s.ID := by
      intro hc
      exact hne (h.inj e he back hmem q t p s (sessionOf_eq hq ht) hback hc)
    have he'ne : e' ≠ back := by
      intro hc
      subst hc
      rw [hel] at he'
      simp at he'
    refine ⟨q, t, hkeep e _ hne hq, ht, hU, e', ?_, hkeep e' _ he'ne he'⟩
    simp [mapDelete, hIDne, hs]
  · intro id e' hs
    have hidne : id ≠ s.ID := by
      intro hc
      simp [mapDelete, hc] at hs
    have hs' : m.sessions id = some e' := by simpa [mapDelete, hidne] using hs
    obtain ⟨q, t, hq, ht, hID, e, he, heq⟩ := h.index id e' hs'
    have he'ne : e' ≠ back := by
      intro hc
      subst hc
      rw [hel] at hq
      simp at hq
    have hene : e ≠ back := by
      intro hc
      subst hc
      rw [hel] at heq
      simp only [Option.some.injEq, Element.mk.injEq, and_true] at heq
      subst heq
      rw [hp] at ht
      cases ht
      exact hidne hID.symm
    exact ⟨q, t, hkeep e' _ he'ne hq, ht, hID, e,
      (h.nodup.mem_erase_iff).mpr ⟨hene, he⟩, hkeep e _ hene heq⟩
  · intro e₁ he₁ e₂ he₂ p₁ s₁ p₂ s₂ hs₁ hs₂ hID
    rw [sessionOf_set_flag m hel] at hs₁ hs₂
    exact h.inj e₁ (List.mem_of_mem_erase he₁) e₂ (List.mem_of_mem_erase he₂) p₁ s₁ p₂ s₂
      hs₁ hs₂ hID

theorem Reach.reorder {m : SessionManager} {U : List String} (h : Reach m U)
    {l : List Nat} (hn : l.Nodup) (hmem : ∀ e, e ∈ l ↔ e ∈ m.recentlyUsedSessions) :
    Reach { m with recentlyUsedSessions := l } U := by
  refine ⟨hn, ?_, ?_, ?_⟩
  · intro e he
    exact h.owned e ((hmem e).mp he)
  · intro id e' hs
    obtain ⟨q, t, hq, ht, hID, e, he, heq⟩ := h.index id e' hs
    exact ⟨q, t, hq, ht, hID, e, (hmem e).mpr he, heq⟩
  · intro e₁ he₁ e₂ he₂ p₁ s₁ p₂ s₂ hs₁ hs₂ hID
    exact h.inj e₁ ((hmem _).mp he₁) e₂ ((hmem _).mp he₂) p₁ s₁ p₂ s₂ hs₁ hs₂ hID

theorem Reach.sweep {m : SessionManager} {U : List String} (h : Reach m U)
    (now₁ now₂ : Int) : Reach ((backgroundCleaner m now₁ now₂).getD m) U := by
  cases hb : Back m with
  | none =>
    have hnil : m.recentlyUsedSessions = [] := List.getLast?_eq_none_iff.mp hb
    rw [backgroundCleaner_of_nil hnil]
    exact h
  | some back =>
    have hmem : back ∈ m.recentlyUsedSessions := List.mem_of_getLast?_eq_some hb
    obtain ⟨p, s, hel, hp, _⟩ := h.owned back hmem
    rw [backgroundCleaner_of_back hb hel hp]
    split_ifs with h₁ h₂ h₃
    · exact h.remove hmem hel hp
    · exact h
    · refine h.reorder (List.nodup_cons.mpr ⟨?_, h.nodup.erase _⟩) ?_
      · intro hc
        exact ((h.nodup.mem_erase_iff).mp hc).1 rfl
      · intro e
        constructor
        · intro he
          rcases List.mem_cons.mp he with rfl | he
          · exact hmem
          · exact List.mem_of_mem_erase he
        · intro he
          by_cases hc : e = back
          · subst hc; exact List.mem_cons_self _ _
          · exact List.mem_cons_of_mem _ ((h.nodup.mem_erase_iff).mpr ⟨hc, he⟩)
    · exact h

theorem Reach.step {m : SessionManager} {U : List String} (h : Reach m U) (op : Op)
    (hfresh : ∀ id ∈ createdIDs [op], id ∉ U) :
    Reach (step m op) (createdIDs [op] ++ U) := by
  cases op with
  | create gen now =>
    obtain ⟨id, err⟩ := gen
    cases err with
    | none =>
      have hid : id ∉ U := hfresh id (by simp [createdIDs])
      simpa [SessionCleaner.step, createdIDs] using h.create hid now
    | some e => simpa [SessionCleaner.step, createdIDs, CreateSession] using h
  | get id =>
    have hg : SessionCleaner.step m (.get id) = m := step_get m id
    simpa [hg, createdIDs] using h
  | update id data now =>
    cases hs : m.sessions id with
    | none =>
      simpa [SessionCleaner.step, createdIDs, UpdateSessionData, hs] using h
    | some e' =>
      obtain ⟨p, s, _, hp, _, hu⟩ := UpdateSessionData_of_reach h hs data now
      simp only [SessionCleaner.step, hu, createdIDs, List.nil_append, Option.map_some',
        Option.getD_some]
      exact h.setHeap hp rfl
  | sweep now₁ now₂ =>
    simpa [SessionCleaner.step, createdIDs] using h.sweep now₁ now₂

theorem createdIDs_cons (op : Op) (ops : List Op) :
    createdIDs (op :: ops) = createdIDs [op] ++ createdIDs ops := by
  cases op with
  | create gen now =>
    obtain ⟨id, err⟩ := gen
    cases err <;> simp [createdIDs]
  | get id => simp [createdIDs]
  | update id data now => simp [createdIDs]
  | sweep now₁ now₂ => simp [createdIDs]

theorem createdIDs_append (ops₁ ops₂ : List Op) :
    createdIDs (ops₁ ++ ops₂) = createdIDs ops₁ ++ createdIDs ops₂ := by
  induction ops₁ with
  | nil => simp [createdIDs]
  | cons op ops ih =>
    rw [List.cons_append, createdIDs_cons, ih, createdIDs_cons op ops, List.append_assoc]

theorem Reach.runFrom {m : SessionManager} {U : List String} (h : Reach m U)
    (ops : List Op) (hn : (createdIDs ops).Nodup) (hfresh : ∀ id ∈ createdIDs ops, id ∉ U) :
    ∃ V, Reach (runFrom m ops) V ∧ ∀ id, id ∈ V ↔ id ∈ createdIDs ops ∨ id ∈ U := by
  induction ops generalizing m U with
  | nil => exact ⟨U, h, by simp [createdIDs]⟩
  | cons op ops ih =>
    rw [createdIDs_cons] at hn hfresh
    have hn' := List.nodup_append.mp hn
    have h₁ := h.step op (fun id hid => hfresh id (List.mem_append_left _ hid))
    obtain ⟨V, hV, hmem⟩ := ih h₁ hn'.2.1 (by
      intro id hid hc
      rcases List.mem_append.mp hc with hc | hc
      · exact hn'.2.2 hc hid
      · exact hfresh id (List.mem_append_right _ hid) hc)
    refine ⟨V, hV, ?_⟩
    intro id
    rw [hmem, createdIDs_cons op ops]
    simp only [List.mem_append]
    tauto

theorem Reach.new : Reach NewSessionManager [] := by
  refine ⟨List.nodup_nil, ?_, ?_, ?_⟩
  · intro e he; cases he
  · intro id e' hs; exact Option.noConfusion hs
  · intro e₁ he₁; cases he₁

theorem Reach.run (ops : List Op) (hn : (createdIDs ops).Nodup) :
    ∃ V, Reach (run ops) V := by
  obtain ⟨V, hV, _⟩ := Reach.new.runFrom ops hn (by simp)
  exact ⟨V, hV⟩

/-! ## From the invariants to the observations -/

theorem listIDs_eq_map (m : SessionManager) :
    listIDs m = m.recentlyUsedSessions.map
      fun e => ((sessionOf m e).map Prod.snd).map Session.ID := by
  simp [listIDs, listSessions, List.map_map]

theorem map_some_reduceOption {α : Type} (l : List (Option α))
    (h : ∀ x ∈ l, x ≠ none) : l.reduceOption.map some = l := by
  induction l with
  | nil => rfl
  | cons a l ih =>
    cases a with
    | none => exact absurd rfl (h none (List.mem_cons_self _ _))
    | some a =>
      rw [List.reduceOption_cons_of_some, List.map_cons,
        ih fun x hx => h x (List.mem_cons_of_mem _ hx)]

theorem Reach.indexMatchesSequence {m : SessionManager} {U : List String}
    (h : Reach m U) : IndexMatchesSequence m := by
  have hsome : ∀ e ∈ m.recentlyUsedSessions, ∃ p s, sessionOf m e = some (p, s) := by
    intro e he
    obtain ⟨p, s, hel, hp, _⟩ := h.owned e he
    exact ⟨p, s, sessionOf_eq hel hp⟩
  have hmap : (listIDs m).reduceOption.map some = listIDs m := by
    apply map_some_reduceOption
    intro x hx hc
    rw [listIDs_eq_map] at hx
    obtain ⟨e, he, hxe⟩ := List.mem_map.mp hx
    obtain ⟨p, s, hs⟩ := hsome e he
    rw [hs, hc] at hxe
    exact Option.noConfusion hxe
  have hnd : (listIDs m).Nodup := by
    rw [listIDs_eq_map]
    refine List.Nodup.map_on ?_ h.nodup
    intro e₁ he₁ e₂ he₂ heq
    obtain ⟨p₁, s₁, hs₁⟩ := hsome e₁ he₁
    obtain ⟨p₂, s₂, hs₂⟩ := hsome e₂ he₂
    rw [hs₁, hs₂] at heq
    simp only [Option.map_some', Option.some.injEq] at heq
    exact h.inj e₁ he₁ e₂ he₂ p₁ s₁ p₂ s₂ hs₁ hs₂ heq
  refine ⟨(listIDs m).reduceOption, hmap.symm, ?_, ?_⟩
  · rw [← hmap] at hnd
    exact List.Nodup.of_map _ hnd
  · intro id
    have hmem : id ∈ (listIDs m).reduceOption ↔ some id ∈ listIDs m := by
      conv_rhs => rw [← hmap]
      simp
    rw [hmem, listIDs_eq_map]
    constructor
    · intro hne
      cases hs : m.sessions id with
      | none => exact absurd hs hne
      | some e' =>
        obtain ⟨p, s, _, hp, hID, e, he, hel⟩ := h.index id e' hs
        refine List.mem_map.mpr ⟨e, he, ?_⟩
        rw [sessionOf_eq hel hp]
        simp [hID]
    · intro hin
      obtain ⟨e, he, hxe⟩ := List.mem_map.mp hin
      obtain ⟨p, s, hel, hp, _, e', hs, _⟩ := h.owned e he
      rw [sessionOf_eq hel hp] at hxe
      simp only [Option.map_some', Option.some.injEq] at hxe
      rw [← hxe, hs]
      exact Option.some_ne_none _

theorem Reach.wellFormed {m : SessionManager} {U : List String} (h : Reach m U) :
    WellFormed m := by
  intro e he
  obtain ⟨p, s, hel, _⟩ := h.owned e he
  exact ⟨_, hel, rfl⟩

theorem Since_ge_iff (now t : Int) : 5 * Second ≤ Since now t ↔ 5 * Second ≤ now - t := by
  unfold Since
  have hS : Second = 1000000000 := rfl
  have hM : maxDuration = 9223372036854775807 := rfl
  have hm : minDuration = -9223372036854775808 := rfl
  split_ifs with h₁ h₂
  · constructor <;> intro h <;> omega
  · constructor <;> intro h <;> omega
  · rfl

theorem Since_lt_iff (now t : Int) : Since now t < 5 * Second ↔ now - t < 5 * Second := by
  unfold Since
  have hS : Second = 1000000000 := rfl
  have hM : maxDuration = 9223372036854775807 := rfl
  have hm : minDuration = -9223372036854775808 := rfl
  split_ifs with h₁ h₂
  · constructor <;> intro h <;> omega
  · constructor <;> intro h <;> omega
  · rfl

theorem erase_getLast {l : List Nat} {b : Nat} (hn : l.Nodup) (hb : l.getLast? = some b) :
    l.erase b = l.dropLast := by
  obtain ⟨ys, rfl⟩ := List.getLast?_eq_some_iff.mp hb
  have hnot : b ∉ ys := by
    intro hc
    have := (List.nodup_append.mp hn).2.2 hc (List.mem_singleton_self b)
    exact this
  rw [List.erase_append_right _ hnot, List.dropLast_concat]
  simp

theorem eq_singleton_of_head_getLast {l : List Nat} {b : Nat} (hn : l.Nodup)
    (hh : l.head? = some b) (hb : l.getLast? = some b) : l = [b] := by
  obtain ⟨ys, rfl⟩ := List.getLast?_eq_some_iff.mp hb
  cases ys with
  | nil => rfl
  | cons a ys =>
    exfalso
    simp only [List.cons_append, List.head?_cons, Option.some.injEq] at hh
    subst hh
    exact (List.nodup_append.mp hn).2.2 (List.mem_cons_self _ _) (List.mem_singleton_self _)

/-! ## One iteration of the cleaner -/

theorem IndexMatchesSequence.nodup {m : SessionManager} (hi : IndexMatchesSequence m) :
    m.recentlyUsedSessions.Nodup := by
  obtain ⟨ids, hids, hnd, _⟩ := hi
  have h : (listIDs m).Nodup := by
    rw [hids]
    exact hnd.map (Option.some_injective _)
  rw [listIDs_eq_map] at h
  exact List.Nodup.of_map _ h

theorem back_of_last {m : SessionManager} (hw : WellFormed m) {s : Session}
    (h : (listSessions m).getLast? = some (some s)) :
    ∃ back p, Back m = some back ∧ m.elems[back]? = some ⟨p, true⟩ ∧
      m.heap[p]? = some s := by
  unfold listSessions at h
  rw [List.getLast?_map] at h
  cases hb : m.recentlyUsedSessions.getLast? with
  | none => rw [hb] at h; exact Option.noConfusion h
  | some back =>
    rw [hb] at h
    simp only [Option.map_some', Option.some.injEq] at h
    cases hs : sessionOf m back with
    | none => rw [hs] at h; exact Option.noConfusion h
    | some ps =>
      obtain ⟨p, s'⟩ := ps
      rw [hs] at h
      simp only [Option.map_some', Option.some.injEq] at h
      subst h
      obtain ⟨b, hel, hp⟩ := sessionOf_some hs
      obtain ⟨el, hel', hl⟩ := hw back (List.mem_of_getLast?_eq_some hb)
      rw [hel] at hel'
      cases hel'
      simp only at hl
      subst hl
      exact ⟨back, p, hb, hel, hp⟩

theorem listSessions_set_flag (m : SessionManager) {back p : Nat} {b : Bool}
    (hel : m.elems[back]? = some ⟨p, b⟩) (b' : Bool) (l : List Nat)
    (f : String → Option Nat) :
    listSessions { m with elems := m.elems.set back ⟨p, b'⟩, recentlyUsedSessions := l,
                          sessions := f } = l.map fun e => (sessionOf m e).map Prod.snd := by
  unfold listSessions
  simp only [sessionOf_set_flag m hel]

theorem listIDs_eq_map_listSessions (m : SessionManager) :
    listIDs m = (listSessions m).map (Option.map Session.ID) := rfl

/-- The cleaner removes a stale back session: the sequence loses its last
entry, the index loses the identifier of that session, nothing else moves. -/
theorem backgroundCleaner_evicts {m : SessionManager} (hw : WellFormed m)
    (hi : IndexMatchesSequence m) {s : Session}
    (hlast : (listSessions m).getLast? = some (some s)) (now₁ now₂ : Int)
    (hstale : 5 * Second ≤ now₁ - s.lastUsed) :
    ∃ m', backgroundCleaner m now₁ now₂ = some m' ∧
      listSessions m' = (listSessions m).dropLast ∧
      (∀ id, m'.sessions id = if id = s.ID then none else m.sessions id) ∧
      (∀ id, indexSession m' id = if id = s.ID then none else indexSession m id) ∧
      m'.heap = m.heap ∧ WellFormed m' ∧ IndexMatchesSequence m' := by
  obtain ⟨back, p, hb, hel, hp⟩ := back_of_last hw hlast
  have hnd := hi.nodup
  have herase := erase_getLast hnd hb
  have hmem : back ∈ m.recentlyUsedSessions := List.mem_of_getLast?_eq_some hb
  rw [backgroundCleaner_of_back hb hel hp, if_pos ((Since_ge_iff _ _).mpr hstale)]
  have hls : listSessions { m with
      elems := m.elems.set back ⟨p, false⟩
      recentlyUsedSessions := m.recentlyUsedSessions.erase back
      sessions := mapDelete m.sessions s.ID } = (listSessions m).dropLast := by
    rw [listSessions_set_flag m hel, herase, List.map_dropLast]
    rfl
  refine ⟨_, rfl, hls, ?_, ?_, rfl, ?_, ?_⟩
  · intro id
    rfl
  · intro id
    unfold indexSession
    simp only [mapDelete]
    by_cases hc : id = s.ID
    · simp [hc]
    · simp only [hc, if_false]
      cases m.sessions id with
      | none => rfl
      | some e => simp only [sessionOf_set_flag m hel]
  · intro e he
    obtain ⟨hne, he⟩ := (hnd.mem_erase_iff).mp he
    obtain ⟨el, hel', hl⟩ := hw e he
    refine ⟨el, ?_, hl⟩
    show (m.elems.set back ⟨p, false⟩)[e]? = some el
    rw [List.getElem?_set_ne (Ne.symm hne)]; exact hel'
  · obtain ⟨ids, hids, hidsnd, hkeys⟩ := hi
    have hidlast : ids.getLast? = some s.ID := by
      have h₁ : (listIDs m).getLast? = some (some s.ID) := by
        rw [listIDs_eq_map_listSessions, List.getLast?_map, hlast]; rfl
      rw [hids, List.getLast?_map] at h₁
      cases hl : ids.getLast? with
      | none => rw [hl] at h₁; exact Option.noConfusion h₁
      | some x =>
        rw [hl] at h₁
        simp only [Option.map_some', Option.some.injEq] at h₁
        rw [h₁]
    obtain ⟨ys, hys⟩ := List.getLast?_eq_some_iff.mp hidlast
    have hdrop : ids.dropLast = ys := by rw [hys, List.dropLast_concat]
    have hnot : s.ID ∉ ys := by
      intro hc
      rw [hys] at hidsnd
      exact (List.nodup_append.mp hidsnd).2.2 hc (List.mem_singleton_self _)
    refine ⟨ys, ?_, ?_, ?_⟩
    · rw [listIDs_eq_map_listSessions, hls, List.map_dropLast, ← listIDs_eq_map_listSessions,
        hids, ← List.map_dropLast, hdrop]
    · rw [hys] at hidsnd
      exact (List.nodup_append.mp hidsnd).1
    · intro id
      show mapDelete m.sessions s.ID id ≠ none ↔ id ∈ ys
      by_cases hc : id = s.ID
      · subst hc
        simp [mapDelete, hnot]
      · have := hkeys id
        rw [hys] at this
        simp only [mapDelete, hc, if_false]
        rw [this]
        simp [hc]

/-- The cleaner meets a fresh back session: that entry goes to the front of
the sequence, nothing else moves. -/
theorem backgroundCleaner_keeps {m : SessionManager} (hw : WellFormed m)
    (hi : IndexMatchesSequence m) {s : Session}
    (hlast : (listSessions m).getLast? = some (some s)) (now₁ now₂ : Int)
    (hfresh₁ : now₁ - s.lastUsed < 5 * Second) (hfresh₂ : now₂ - s.lastUsed < 5 * Second) :
    ∃ m', backgroundCleaner m now₁ now₂ = some m' ∧
      listSessions m' = some s :: (listSessions m).dropLast ∧
      m'.sessions = m.sessions ∧ m'.heap = m.heap ∧ m'.elems = m.elems := by
  obtain ⟨back, p, hb, hel, hp⟩ := back_of_last hw hlast
  have hnd := hi.nodup
  have herase := erase_getLast hnd hb
  have h₁ : ¬ Since now₁ s.lastUsed ≥ 5 * Second := by
    intro hc
    have := (Since_ge_iff _ _).mp hc
    omega
  rw [backgroundCleaner_of_back hb hel hp, if_neg h₁, if_pos ((Since_lt_iff _ _).mpr hfresh₂)]
  have hback : (sessionOf m back).map Prod.snd = some s := by
    rw [sessionOf_eq hel hp]; rfl
  by_cases hf : Front m = some back
  · rw [if_pos hf]
    refine ⟨m, rfl, ?_, rfl, rfl, rfl⟩
    have hsingle := eq_singleton_of_head_getLast hnd hf hb
    unfold listSessions
    rw [hsingle]
    simp [hback]
  · rw [if_neg hf]
    refine ⟨_, rfl, ?_, rfl, rfl, rfl⟩
    show (back :: m.recentlyUsedSessions.erase back).map
        (fun e => (sessionOf m e).map Prod.snd) = some s :: (listSessions m).dropLast
    rw [List.map_cons, hback, herase, List.map_dropLast]
    rfl

/-- The cleaner meets a back session that is fresh at the first clock reading
and stale at the second: neither guard holds and the store is unchanged. -/
theorem backgroundCleaner_between {m : SessionManager} (hw : WellFormed m) {s : Session}
    (hlast : (listSessions m).getLast? = some (some s)) (now₁ now₂ : Int)
    (hfresh₁ : now₁ - s.lastUsed < 5 * Second) (hstale₂ : 5 * Second ≤ now₂ - s.lastUsed) :
    backgroundCleaner m now₁ now₂ = some m := by
  obtain ⟨back, p, hb, hel, hp⟩ := back_of_last hw hlast
  have h₁ : ¬ Since now₁ s.lastUsed ≥ 5 * Second := by
    intro hc
    have := (Since_ge_iff _ _).mp hc
    omega
  have h₂ : ¬ Since now₂ s.lastUsed < 5 * Second := by
    intro hc
    have := (Since_lt_iff _ _).mp hc
    omega
  rw [backgroundCleaner_of_back hb hel hp, if_neg h₁, if_neg h₂]

theorem last_of_ne_nil {m : SessionManager} (hi : IndexMatchesSequence m)
    (hne : m.recentlyUsedSessions ≠ []) :
    ∃ s, (listSessions m).getLast? = some (some s) := by
  obtain ⟨ids, hids, _, _⟩ := hi
  obtain ⟨back, hb⟩ := Option.ne_none_iff_exists'.mp
    (fun hc => hne (List.getLast?_eq_none_iff.mp hc))
  have hmem : (sessionOf m back).map Prod.snd ∈ listSessions m :=
    List.mem_map.mpr ⟨back, List.mem_of_getLast?_eq_some hb, rfl⟩
  have hlast : (listSessions m).getLast? = some ((sessionOf m back).map Prod.snd) := by
    unfold listSessions
    rw [List.getLast?_map, hb]; rfl
  cases hs : (sessionOf m back).map Prod.snd with
  | some s => exact ⟨s, by rw [hlast, hs]⟩
  | none =>
    exfalso
    rw [hs] at hmem
    have : (none : Option String) ∈ listIDs m := by
      rw [listIDs_eq_map_listSessions]
      exact List.mem_map.mpr ⟨none, hmem, rfl⟩
    rw [hids] at this
    simp at this

/-! ## Sessions that stay in the store -/

theorem indexSession_eq {m : SessionManager} {id : String} {e p : Nat} {b : Bool}
    {s : Session} (hs : m.sessions id = some e) (hel : m.elems[e]? = some ⟨p, b⟩)
    (hp : m.heap[p]? = some s) : indexSession m id = some s := by
  simp [indexSession, hs, sessionOf_eq hel hp]

theorem Reach.of_indexSession {m : SessionManager} {U : List String} (h : Reach m U)
    {id : String} {s : Session} (hs : indexSession m id = some s) :
    ∃ e' p e, m.sessions id = some e' ∧ m.elems[e']? = some ⟨p, false⟩ ∧
      m.heap[p]? = some s ∧ s.ID = id ∧ e ∈ m.recentlyUsedSessions ∧
      m.elems[e]? = some ⟨p, true⟩ := by
  unfold indexSession at hs
  cases hk : m.sessions id with
  | none => rw [hk] at hs; exact Option.noConfusion hs
  | some e' =>
    obtain ⟨p, t, hel, hp, hID, e, he, hel'⟩ := h.index id e' hk
    rw [hk] at hs
    simp only [sessionOf_eq hel hp, Option.map_some', Option.some.injEq] at hs
    subst hs
    exact ⟨e', p, e, rfl, hel, hp, hID, he, hel'⟩

theorem indexSession_create_same (m : SessionManager) (id : String) (now : Int) :
    indexSession (CreateSession m (id, none) now).2 id = some ⟨id, [], now⟩ := by
  rw [CreateSession_store]
  exact indexSession_eq (e := m.elems.length) (p := m.heap.length) (b := false)
    (by simp [mapSet]) (getElem?_append_length _ _ _) (getElem?_append_length _ _ _)

theorem Reach.indexSession_create_other {m : SessionManager} {U : List String}
    (h : Reach m U) {id id' : String} (hne : id ≠ id') {s : Session}
    (hs : indexSession m id = some s) (now : Int) :
    indexSession (CreateSession m (id', none) now).2 id = some s := by
  obtain ⟨e', p, e, hk, hel, hp, _⟩ := h.of_indexSession hs
  rw [CreateSession_store]
  exact indexSession_eq (e := e') (p := p) (b := false)
    (by simp [mapSet, hne, hk]) (getElem?_append_of_some _ _ _ _ hel)
    (getElem?_append_of_some _ _ _ _ hp)

/-- A session the index reaches with a stamp `T` or later is still reached,
with a stamp `T` or later, after any call that reads the clock at `T` or
later, a cleaner iteration being allowed only before `T` plus 5 seconds. -/
theorem Reach.step_keeps {m : SessionManager} {U : List String} (h : Reach m U)
    {id : String} {T : Int} (hlive : ∃ s, indexSession m id = some s ∧ T ≤ s.lastUsed)
    (op : Op) (hclock : ∀ t ∈ op.times, T ≤ t)
    (hfloor : ∀ now₁ now₂, op = .sweep now₁ now₂ → now₁ - T < 5 * Second) :
    ∃ s, indexSession (SessionCleaner.step m op) id = some s ∧ T ≤ s.lastUsed := by
  obtain ⟨s, hs, hT⟩ := hlive
  cases op with
  | create gen now =>
    obtain ⟨id', err⟩ := gen
    cases err with
    | some e => exact ⟨s, hs, hT⟩
    | none =>
      by_cases hc : id = id'
      · subst hc
        exact ⟨_, indexSession_create_same m id now, hclock now (by simp [Op.times])⟩
      · exact ⟨s, h.indexSession_create_other hc hs now, hT⟩
  | get id' =>
    rw [step_get m id']
    exact ⟨s, hs, hT⟩
  | update id' data now =>
    cases hk' : m.sessions id' with
    | none =>
      have : SessionCleaner.step m (.update id' data now) = m := by
        simp [SessionCleaner.step, UpdateSessionData, hk']
      rw [this]
      exact ⟨s, hs, hT⟩
    | some e₀ =>
      obtain ⟨p', s', _, hp', _, hu⟩ := UpdateSessionData_of_reach h hk' data now
      obtain ⟨e', p, e, hk, hel, hp, _⟩ := h.of_indexSession hs
      simp only [SessionCleaner.step, hu, Option.map_some', Option.getD_some]
      by_cases hc : p = p'
      · subst hc
        refine ⟨{ s' with lastUsed := now }, ?_, hclock now (by simp [Op.times])⟩
        exact indexSession_eq (b := false) hk hel (heap_set_same _ hp')
      · refine ⟨s, ?_, hT⟩
        refine indexSession_eq (b := false) hk hel ?_
        show (m.heap.set p' _)[p]? = some s
        rw [List.getElem?_set_ne (Ne.symm hc)]; exact hp
  | sweep now₁ now₂ =>
    simp only [SessionCleaner.step]
    cases hb : Back m with
    | none =>
      rw [backgroundCleaner_of_nil (List.getLast?_eq_none_iff.mp hb)]
      exact ⟨s, hs, hT⟩
    | some back =>
      have hmem : back ∈ m.recentlyUsedSessions := List.mem_of_getLast?_eq_some hb
      obtain ⟨pb, sb, helb, hpb, _⟩ := h.owned back hmem
      obtain ⟨e', p, e, hk, hel, hp, hID, he, hele⟩ := h.of_indexSession hs
      rw [backgroundCleaner_of_back hb helb hpb]
      split_ifs with h₁ h₂ h₃
      · have hne : id ≠ sb.ID := by
          intro hc
          have hinj := h.inj e he back hmem p s pb sb (sessionOf_eq hele hp)
            (sessionOf_eq helb hpb) (hID.trans hc)
          subst hinj
          rw [helb] at hele
          simp only [Option.some.injEq, Element.mk.injEq, and_true] at hele
          subst hele
          rw [hpb] at hp
          cases hp
          have h5 := (Since_ge_iff _ _).mp h₁
          have := hfloor now₁ now₂ rfl
          omega
        refine ⟨s, ?_, hT⟩
        simp only [Option.getD_some]
        unfold indexSession
        simp only [mapDelete, hne, if_false, hk, sessionOf_set_flag m helb]
        rw [sessionOf_eq hel hp]; rfl
      · exact ⟨s, hs, hT⟩
      · refine ⟨s, ?_, hT⟩
        simp only [Option.getD_some]
        exact indexSession_eq hk hel hp
      · exact ⟨s, hs, hT⟩

theorem clock_cons (op : Op) (ops : List Op) : clock (op :: ops) = op.times ++ clock ops := by
  simp [clock]

theorem clock_append (ops₁ ops₂ : List Op) : clock (ops₁ ++ ops₂) = clock ops₁ ++ clock ops₂ := by
  simp [clock]

theorem Reach.runFrom_keeps {m : SessionManager} {U : List String} (h : Reach m U)
    {id : String} {T : Int} (hlive : ∃ s, indexSession m id = some s ∧ T ≤ s.lastUsed)
    (ops : List Op) (hn : (createdIDs ops).Nodup) (hfresh : ∀ i ∈ createdIDs ops, i ∉ U)
    (hclock : ∀ t ∈ clock ops, T ≤ t)
    (hfloor : ∀ now₁ now₂, Op.sweep now₁ now₂ ∈ ops → now₁ - T < 5 * Second) :
    ∃ V s, Reach (SessionCleaner.runFrom m ops) V ∧
      indexSession (SessionCleaner.runFrom m ops) id = some s ∧ T ≤ s.lastUsed := by
  induction ops generalizing m U with
  | nil =>
    obtain ⟨s, hs, hT⟩ := hlive
    exact ⟨U, s, h, hs, hT⟩
  | cons op ops ih =>
    rw [createdIDs_cons] at hn hfresh
    rw [clock_cons] at hclock
    have hn' := List.nodup_append.mp hn
    have h₁ := h.step op (fun i hi => hfresh i (List.mem_append_left _ hi))
    have hl₁ := h.step_keeps hlive op (fun t ht => hclock t (List.mem_append_left _ ht))
      (fun n₁ n₂ hop => hfloor n₁ n₂ (hop ▸ List.mem_cons_self _ _))
    exact ih h₁ hl₁ hn'.2.1 (by
        intro i hi hc
        rcases List.mem_append.mp hc with hc | hc
        · exact hn'.2.2 hc hi
        · exact hfresh i (List.mem_append_right _ hi) hc)
      (fun t ht => hclock t (List.mem_append_right _ ht))
      (fun n₁ n₂ hop => hfloor n₁ n₂ (List.mem_cons_of_mem _ hop))

theorem runFrom_append (m : SessionManager) (ops₁ ops₂ : List Op) :
    runFrom m (ops₁ ++ ops₂) = runFrom (runFrom m ops₁) ops₂ := by
  simp [runFrom, List.foldl_append]

theorem GetSessionData_of_indexSession {m : SessionManager} {id : String} {s : Session}
    (hs : indexSession m id = some s) :
    GetSessionData m id = some ((some s.Data, none), m) := by
  unfold indexSession at hs
  unfold GetSessionData
  cases hk : m.sessions id with
  | none => rw [hk] at hs; exact Option.noConfusion hs
  | some e =>
    rw [hk] at hs
    simp only at hs ⊢
    cases hso : sessionOf m e with
    | none => rw [hso] at hs; exact Option.noConfusion hs
    | some ps =>
      rw [hso] at hs
      simp only [Option.map_some', Option.some.injEq] at hs
      subst hs
      rfl

/-! ## Single calls -/

/-- C2: whenever `MakeSessionID` returns `id` without error, `CreateSession`
returns `id` without error, and `GetSessionData id` on the store it leaves
succeeds with the empty payload (and leaves that store as it is). -/
theorem create_then_get_empty (m : SessionManager) (id : String) (now : Int) :
    (CreateSession m (id, none) now).1 = (id, none) ∧
    GetSessionData (CreateSession m (id, none) now).2 id =
      some ((some [], none), (CreateSession m (id, none) now).2) := by
  refine ⟨rfl, ?_⟩
  have h₁ : sessionOf (CreateSession m (id, none) now).2 m.elems.length
      = some (m.heap.length, ⟨id, [], now⟩) := by
    apply sessionOf_eq (b := false)
    · simp only [CreateSession, PushFront, List.append_assoc, List.singleton_append,
        getElem?_append_length]
    · simp only [CreateSession, PushFront, getElem?_append_length]
  have h₂ : (CreateSession m (id, none) now).2.sessions id = some m.elems.length := by
    simp [CreateSession, PushFront, mapSet]
  simp only [GetSessionData, h₂, h₁]

/-- C3: `GetSessionData id` and `UpdateSessionData id P` return
`ErrSessionNotFound` exactly when `id` is not a key of the index, and they
then return it with the store unchanged (for `GetSessionData`, with the `nil`
payload). -/
theorem not_found_iff_absent (m : SessionManager) (id : String) (data : Payload)
    (now : Int) :
    ((GetSessionData m id).map (fun r => r.1.2) = some (some Error.ErrSessionNotFound)
        ↔ m.sessions id = none) ∧
    (GetSessionData m id = some ((none, some Error.ErrSessionNotFound), m)
        ↔ m.sessions id = none) ∧
    ((UpdateSessionData m id data now).map Prod.fst = some (some Error.ErrSessionNotFound)
        ↔ m.sessions id = none) ∧
    (UpdateSessionData m id data now = some (some Error.ErrSessionNotFound, m)
        ↔ m.sessions id = none) := by
  unfold GetSessionData UpdateSessionData
  cases h : m.sessions id with
  | none => simp
  | some e =>
    simp only [reduceCtorEq, iff_false]
    refine ⟨?_, ?_, ?_, ?_⟩
    · cases sessionOf m e <;> simp
    · cases sessionOf m e <;> simp
    · cases hs : sessionOf m e with
      | none => simp
      | some ps =>
        simp only
        cases MoveToFront { m with heap := m.heap.set ps.1 { ps.2 with lastUsed := now } } e <;>
          simp
    · cases hs : sessionOf m e with
      | none => simp
      | some ps =>
        simp only
        cases MoveToFront { m with heap := m.heap.set ps.1 { ps.2 with lastUsed := now } } e <;>
          simp

/-- C7: `GetSessionData id` hands back the very store it was given, for every
store and every identifier; therefore after any number of reads the store
(index, sequence, payloads, `lastUsed` stamps) is the same, and the next
iteration of the cleaner does the same thing. -/
theorem reads_never_refresh (m : SessionManager) (ids : List String) :
    (∀ id, (GetSessionData m id).map Prod.snd = (GetSessionData m id).map fun _ => m) ∧
    runFrom m (ids.map Op.get) = m ∧
    listLastUsed (runFrom m (ids.map Op.get)) = listLastUsed m ∧
    ∀ now₁ now₂, backgroundCleaner (runFrom m (ids.map Op.get)) now₁ now₂ =
      backgroundCleaner m now₁ now₂ := by
  refine ⟨GetSessionData_store m, runFrom_gets m ids, ?_, ?_⟩
  · rw [runFrom_gets]
  · intro now₁ now₂; rw [runFrom_gets]

/-- C10: when `MakeSessionID` fails with the error `e`, `CreateSession`
returns the empty identifier together with `e`, and the store is the one it
was given. -/
theorem create_generator_failure (m : SessionManager) (s : String) (e : Error)
    (now : Int) :
    CreateSession m (s, some e) now = (("", some e), m) := rfl

/-- C1, on the code: after `CreateSession` gave "s1", the call
`UpdateSessionData "s1" P` with `P` the payload website = longhoang.de
returns no error, and the following `GetSessionData "s1"` returns the empty
payload of the creation, not `P`. -/
theorem update_then_get_returns_old_payload :
    (UpdateSessionData (run [.create ("s1", none) 0]) "s1" [("website", "longhoang.de")] 1).map
        Prod.fst = some none ∧
    ((UpdateSessionData (run [.create ("s1", none) 0]) "s1" [("website", "longhoang.de")] 1).bind
        fun r => (GetSessionData r.2 "s1").map Prod.fst) = some (some [], none) := by
  decide

/-- C6, on the code: with sessions "a" then "b" created, the sequence is
b, a; `UpdateSessionData "a" P` returns no error and the sequence is still
b, a: the entry of "a" is not at the front. -/
theorem update_does_not_move_to_front :
    listIDs (run [.create ("a", none) 0, .create ("b", none) 1]) = [some "b", some "a"] ∧
    (UpdateSessionData (run [.create ("a", none) 0, .create ("b", none) 1]) "a" [] 2).map
        Prod.fst = some none ∧
    (UpdateSessionData (run [.create ("a", none) 0, .create ("b", none) 1]) "a" [] 2).map
        (fun r => listIDs r.2) = some [some "b", some "a"] := by
  decide

/-- C9, on the code: creating "a" at 0, "b" at 1 and updating "a" at 2 (a
clock that never goes back, no cleaner iteration) leaves the sequence
b, a with `lastUsed` stamps 1, 2, which increase from front to back. -/
theorem access_order_broken_by_update :
    ClockMonotone [.create ("a", none) 0, .create ("b", none) 1, .update "a" [] 2] ∧
    listIDs (run [.create ("a", none) 0, .create ("b", none) 1, .update "a" [] 2])
      = [some "b", some "a"] ∧
    listLastUsed (run [.create ("a", none) 0, .create ("b", none) 1, .update "a" [] 2])
      = [some 1, some 2] ∧
    ¬ AccessOrdered (run [.create ("a", none) 0, .create ("b", none) 1,
        .update "a" [] 2]) := by
  decide

/-! ## Reachable stores -/

/-- C4: in the store reached from a new session manager by any sequence of
`CreateSession` (the generated identifiers pairwise different),
`GetSessionData`, `UpdateSessionData` and cleaner iterations, the sessions of
the sequence `recentlyUsedSessions` carry pairwise different identifiers
`ids`, and an identifier is a key of the map `sessions` exactly when it is
one of `ids`. -/
theorem index_sequence_bijection (ops : List Op) (hn : (createdIDs ops).Nodup) :
    ∃ ids : List String, listIDs (run ops) = ids.map some ∧ ids.Nodup ∧
      ∀ id, (run ops).sessions id ≠ none ↔ id ∈ ids := by
  obtain ⟨V, hV⟩ := Reach.run ops hn
  exact hV.indexMatchesSequence

theorem index_sequence_bijection_witness :
    (createdIDs [.create ("a", none) 0, .create ("b", none) 1, .update "a" [] 2,
        .sweep 6000000000 6000000000, .get "b", .create ("c", none) 7000000000]).Nodup ∧
    ∃ ids : List String,
      listIDs (run [.create ("a", none) 0, .create ("b", none) 1, .update "a" [] 2,
        .sweep 6000000000 6000000000, .get "b", .create ("c", none) 7000000000])
        = ids.map some ∧ ids.Nodup ∧
      ∀ id, (run [.create ("a", none) 0, .create ("b", none) 1, .update "a" [] 2,
        .sweep 6000000000 6000000000, .get "b", .create ("c", none) 7000000000]).sessions id
        ≠ none ↔ id ∈ ids :=
  ⟨by decide, index_sequence_bijection _ (by decide)⟩

/-- C8, as stated: on the store with the sequence b, a, whose back session
"a" has the stamp 0, an iteration whose first guard reads the clock at
4.999999999 seconds and whose second guard reads it at 5 seconds neither
removes "a" nor moves it to the front: the sequence is still b, a and "a" is
still a key of the index. -/
theorem cleaner_iteration_between_readings :
    listIDs sampleStore = [some "b", some "a"] ∧
    (listSessions sampleStore).getLast? = some (some ⟨"a", [], 0⟩) ∧
    (4999999999 : Int) - 0 < 5 * Second ∧ 5 * Second ≤ (5000000000 : Int) - 0 ∧
    (backgroundCleaner sampleStore 4999999999 5000000000).map listIDs
      = some [some "b", some "a"] ∧
    (backgroundCleaner sampleStore 4999999999 5000000000).map
      (fun m => (m.sessions "a").isSome) = some true := by
  decide

/-- C8, amended: one iteration of the cleaner whose first guard reads the
clock at `now₁` and whose second guard reads it at `now₂`, on a store whose
list is well formed and which satisfies the index/sequence invariant.  With
an empty sequence the store is unchanged.  Otherwise the sequence has a back
session `s`.  If `now₁ - s.lastUsed` is at least 5 seconds, the sequence
loses that last entry, the index loses the key `s.ID` and keeps every other
entry, the sessions are untouched, and the invariants hold again.  If
`now₁ - s.lastUsed` and `now₂ - s.lastUsed` are both below 5 seconds, the
index and the sessions are untouched and the sequence is `s` followed by the
former sequence without its last entry. -/
theorem cleaner_iteration (m : SessionManager) (now₁ now₂ : Int) (hw : WellFormed m)
    (hi : IndexMatchesSequence m) :
    (m.recentlyUsedSessions = [] → backgroundCleaner m now₁ now₂ = some m) ∧
    (m.recentlyUsedSessions ≠ [] → ∃ s, (listSessions m).getLast? = some (some s)) ∧
    (∀ s, (listSessions m).getLast? = some (some s) → 5 * Second ≤ now₁ - s.lastUsed →
      ∃ m', backgroundCleaner m now₁ now₂ = some m' ∧
        listSessions m' = (listSessions m).dropLast ∧
        (∀ id, m'.sessions id = if id = s.ID then none else m.sessions id) ∧
        (∀ id, indexSession m' id = if id = s.ID then none else indexSession m id) ∧
        m'.heap = m.heap ∧ WellFormed m' ∧ IndexMatchesSequence m') ∧
    (∀ s, (listSessions m).getLast? = some (some s) → now₁ - s.lastUsed < 5 * Second →
      now₂ - s.lastUsed < 5 * Second →
      ∃ m', backgroundCleaner m now₁ now₂ = some m' ∧
        listSessions m' = some s :: (listSessions m).dropLast ∧
        m'.sessions = m.sessions ∧ m'.heap = m.heap ∧ m'.elems = m.elems) :=
  ⟨fun h => backgroundCleaner_of_nil h now₁ now₂, last_of_ne_nil hi,
    fun _ hlast hstale => backgroundCleaner_evicts hw hi hlast now₁ now₂ hstale,
    fun _ hlast hfresh₁ hfresh₂ => backgroundCleaner_keeps hw hi hlast now₁ now₂ hfresh₁ hfresh₂⟩

theorem cleaner_iteration_witness :
    WellFormed sampleStore ∧ IndexMatchesSequence sampleStore ∧
    (sampleStore.recentlyUsedSessions = [] →
      backgroundCleaner sampleStore 6000000000 6000000100 = some sampleStore) ∧
    (sampleStore.recentlyUsedSessions ≠ [] →
      ∃ s, (listSessions sampleStore).getLast? = some (some s)) ∧
    (∀ s, (listSessions sampleStore).getLast? = some (some s) →
      5 * Second ≤ 6000000000 - s.lastUsed →
      ∃ m', backgroundCleaner sampleStore 6000000000 6000000100 = some m' ∧
        listSessions m' = (listSessions sampleStore).dropLast ∧
        (∀ id, m'.sessions id = if id = s.ID then none else sampleStore.sessions id) ∧
        (∀ id, indexSession m' id = if id = s.ID then none else indexSession sampleStore id) ∧
        m'.heap = sampleStore.heap ∧ WellFormed m' ∧ IndexMatchesSequence m') ∧
    (∀ s, (listSessions sampleStore).getLast? = some (some s) →
      6000000000 - s.lastUsed < 5 * Second → 6000000100 - s.lastUsed < 5 * Second →
      ∃ m', backgroundCleaner sampleStore 6000000000 6000000100 = some m' ∧
        listSessions m' = some s :: (listSessions sampleStore).dropLast ∧
        m'.sessions = sampleStore.sessions ∧ m'.heap = sampleStore.heap ∧
        m'.elems = sampleStore.elems) :=
  (Reach.run [.create ("a", none) 0, .create ("b", none) 1] (by decide)).elim fun _ hV =>
    ⟨hV.wellFormed, hV.indexMatchesSequence,
      cleaner_iteration sampleStore 6000000000 6000000100 hV.wellFormed
        hV.indexMatchesSequence⟩

/-- C5: take any sequence of calls `pre ++ op :: post` on a new session
manager, with pairwise different generated identifiers and a clock that never
goes back, in which `op` creates the session `id` at the instant `T` or
updates it successfully at `T`.  If every cleaner iteration of `post` reads a
clock `now₁` with `now₁ - T` below 5 seconds, then at the end the session
`id` is still in the index and in the sequence, with a `lastUsed` stamp not
before `T`, and `GetSessionData id` returns its payload: no cleaner iteration
closer than 5 seconds to a creation or successful update of a session
removes it. -/
theorem eviction_floor (pre post : List Op) (op : Op) (id : String) (T : Int)
    (hids : (createdIDs (pre ++ op :: post)).Nodup)
    (hclock : ClockMonotone (pre ++ op :: post))
    (htouch : op = .create (id, none) T ∨
      ∃ data, op = .update id data T ∧
        (UpdateSessionData (run pre) id data T).map Prod.fst = some none)
    (hfloor : ∀ now₁ now₂, Op.sweep now₁ now₂ ∈ post → now₁ - T < 5 * Second) :
    ∃ s, indexSession (run (pre ++ op :: post)) id = some s ∧ s.ID = id ∧
      T ≤ s.lastUsed ∧ some s ∈ listSessions (run (pre ++ op :: post)) ∧
      GetSessionData (run (pre ++ op :: post)) id =
        some ((some s.Data, none), run (pre ++ op :: post)) := by
  rw [createdIDs_append, createdIDs_cons] at hids
  have hnd := List.nodup_append.mp hids
  have hnd' := List.nodup_append.mp hnd.2.1
  obtain ⟨V, hV, hVmem⟩ := Reach.new.runFrom pre hnd.1 (by simp)
  have hVpre : ∀ i, i ∈ V → i ∈ createdIDs pre := by
    intro i hi
    rcases (hVmem i).mp hi with h | h
    · exact h
    · cases h
  have h₁ := hV.step op (fun i hi hc =>
    hnd.2.2 (hVpre i hc) (List.mem_append_left _ hi))
  have hT : T ∈ op.times := by
    rcases htouch with rfl | ⟨data, rfl, _⟩ <;> simp [Op.times]
  have hlive : ∃ s, indexSession (step (runFrom NewSessionManager pre) op) id = some s ∧
      T ≤ s.lastUsed := by
    rcases htouch with rfl | ⟨data, rfl, hok⟩
    · exact ⟨_, indexSession_create_same _ id T, le_refl _⟩
    · cases hk : (runFrom NewSessionManager pre).sessions id with
      | none =>
        exfalso
        simp [run, UpdateSessionData, hk] at hok
      | some e' =>
        obtain ⟨p, s, hel, hp, _, hu⟩ := UpdateSessionData_of_reach hV hk data T
        simp only [step, hu, Option.map_some', Option.getD_some]
        exact ⟨{ s with lastUsed := T },
          indexSession_eq (b := false) hk hel (heap_set_same _ hp), le_refl _⟩
  have hcl : ∀ t ∈ clock post, T ≤ t := by
    unfold ClockMonotone at hclock
    rw [clock_append, clock_cons] at hclock
    have h₂ := (List.pairwise_append.mp hclock).2.1
    exact fun t ht => (List.pairwise_append.mp h₂).2.2 T hT t ht
  obtain ⟨W, s, hW, hs, hTs⟩ := h₁.runFrom_keeps hlive post hnd'.2.1 (by
      intro i hi hc
      rcases List.mem_append.mp hc with hc | hc
      · exact hnd'.2.2 hc hi
      · exact hnd.2.2 (hVpre i hc) (List.mem_append_right _ hi))
    hcl hfloor
  have hrun : run (pre ++ op :: post) = runFrom (step (runFrom NewSessionManager pre) op) post := by
    simp [run, runFrom, List.foldl_append]
  rw [hrun]
  obtain ⟨e', p, e, _, _, hp, hID, he, hel⟩ := hW.of_indexSession hs
  refine ⟨s, hs, hID, hTs, ?_, GetSessionData_of_indexSession hs⟩
  refine List.mem_map.mpr ⟨e, he, ?_⟩
  rw [sessionOf_eq hel hp]; rfl

theorem eviction_floor_witness :
    (createdIDs ([.create ("s1", none) 0, .update "s1" [] 1000000000] ++
      .update "s1" [] 5000000000 ::
        [.sweep 5500000000 5500000000, .sweep 6000000000 6000000000,
          .sweep 6500000000 6500000000])).Nodup ∧
    ClockMonotone ([.create ("s1", none) 0, .update "s1" [] 1000000000] ++
      .update "s1" [] 5000000000 ::
        [.sweep 5500000000 5500000000, .sweep 6000000000 6000000000,
          .sweep 6500000000 6500000000]) ∧
    ∃ s, indexSession (run ([.create ("s1", none) 0, .update "s1" [] 1000000000] ++
        .update "s1" [] 5000000000 ::
          [.sweep 5500000000 5500000000, .sweep 6000000000 6000000000,
            .sweep 6500000000 6500000000])) "s1" = some s ∧ s.ID = "s1" ∧
      5000000000 ≤ s.lastUsed ∧
      some s ∈ listSessions (run ([.create ("s1", none) 0, .update "s1" [] 1000000000] ++
        .update "s1" [] 5000000000 ::
          [.sweep 5500000000 5500000000, .sweep 6000000000 6000000000,
            .sweep 6500000000 6500000000])) ∧
      GetSessionData (run ([.create ("s1", none) 0, .update "s1" [] 1000000000] ++
        .update "s1" [] 5000000000 ::
          [.sweep 5500000000 5500000000, .sweep 6000000000 6000000000,
            .sweep 6500000000 6500000000])) "s1" =
        some ((some s.Data, none),
          run ([.create ("s1", none) 0, .update "s1" [] 1000000000] ++
            .update "s1" [] 5000000000 ::
              [.sweep 5500000000 5500000000, .sweep 6000000000 6000000000,
                .sweep 6500000000 6500000000])) :=
  ⟨by decide, by decide,
    eviction_floor [.create ("s1", none) 0, .update "s1" [] 1000000000]
      [.sweep 5500000000 5500000000, .sweep 6000000000 6000000000,
        .sweep 6500000000 6500000000]
      (.update "s1" [] 5000000000) "s1" 5000000000 (by decide) (by decide)
      (Or.inr ⟨[], rfl, by decide⟩)
      (by
        intro now₁ now₂ h
        simp only [List.mem_cons, Op.sweep.injEq, List.mem_singleton, List.not_mem_nil,
          or_false] at h
        have hS : Second = 1000000000 := rfl
        rcases h with ⟨rfl, _⟩ | ⟨rfl, _⟩ | ⟨rfl, _⟩ <;> omega)⟩

/-! ## Creation and identifiers -/

theorem CreateSession_listIDs {m : SessionManager} {ids : List String}
    (hl : listIDs m = ids.map some) (id : String) (now : Int) :
    listIDs (CreateSession m (id, none) now).2 = (id :: ids).map some := by
  have hold : ∀ e ∈ m.recentlyUsedSessions,
      sessionOf (CreateSession m (id, none) now).2 e = sessionOf m e := by
    intro e he
    have hmem : ((sessionOf m e).map Prod.snd).map Session.ID ∈ ids.map some := by
      rw [← hl, listIDs_eq_map]
      exact List.mem_map.mpr ⟨e, he, rfl⟩
    obtain ⟨x, _, hx⟩ := List.mem_map.mp hmem
    cases hs : sessionOf m e with
    | none => rw [hs] at hx; exact Option.noConfusion hx
    | some ps =>
      obtain ⟨p, t⟩ := ps
      obtain ⟨b, hel, hp⟩ := sessionOf_some hs
      rw [CreateSession_store]
      exact sessionOf_eq (getElem?_append_of_some _ _ _ _ hel)
        (getElem?_append_of_some _ _ _ _ hp)
  have hnew : sessionOf (CreateSession m (id, none) now).2 (m.elems.length + 1)
      = some (m.heap.length, ⟨id, [], now⟩) := by
    rw [CreateSession_store]
    exact sessionOf_eq
      (getElem?_append_length_succ m.elems ⟨m.heap.length, false⟩ ⟨m.heap.length, true⟩ [])
      (getElem?_append_length m.heap ⟨id, [], now⟩ [])
  have hrus : (CreateSession m (id, none) now).2.recentlyUsedSessions
      = (m.elems.length + 1) :: m.recentlyUsedSessions := by
    rw [CreateSession_store]
  rw [listIDs_eq_map, hrus, List.map_cons, hnew, List.map_cons, ← hl, listIDs_eq_map]
  congr 1
  apply List.map_congr_left
  intro e he
  rw [hold e he]

/-- C11, as stated: on the store that holds the session "a", a call of
`CreateSession` for which `MakeSessionID` returns "a" again leaves two
sessions with the identifier "a" in the sequence. -/
theorem create_same_identifier_twice :
    listIDs (CreateSession (run [.create ("a", none) 0]) ("a", none) 1).2
      = [some "a", some "a"] ∧
    ¬ (listIDs (CreateSession (run [.create ("a", none) 0]) ("a", none) 1).2).Nodup := by
  decide

/-- C11, amended: if the sessions of the sequence carry the pairwise
different identifiers `ids` and `MakeSessionID` returns an identifier `id`
that is not one of them, then after `CreateSession` the sequence carries the
identifiers `id :: ids`, which are pairwise different. -/
theorem create_keeps_identifiers_distinct (m : SessionManager) (ids : List String)
    (id : String) (now : Int) (hl : listIDs m = ids.map some) (hn : ids.Nodup)
    (hid : id ∉ ids) :
    listIDs (CreateSession m (id, none) now).2 = (id :: ids).map some ∧
    (id :: ids).Nodup ∧ (listIDs (CreateSession m (id, none) now).2).Nodup := by
  have h := CreateSession_listIDs hl id now
  have hn' : (id :: ids).Nodup := List.nodup_cons.mpr ⟨hid, hn⟩
  refine ⟨h, hn', ?_⟩
  rw [h]
  exact hn'.map (Option.some_injective _)

theorem create_keeps_identifiers_distinct_witness :
    listIDs (run [.create ("a", none) 0]) = ["a"].map some ∧ ["a"].Nodup ∧ "b" ∉ ["a"] ∧
    listIDs (CreateSession (run [.create ("a", none) 0]) ("b", none) 1).2
      = ("b" :: ["a"]).map some ∧
    ("b" :: ["a"]).Nodup ∧
    (listIDs (CreateSession (run [.create ("a", none) 0]) ("b", none) 1).2).Nodup :=
  ⟨by decide, by decide, by decide,
    create_keeps_identifiers_distinct (run [.create ("a", none) 0]) ["a"] "b" 1
      (by decide) (by decide) (by decide)⟩

/-- C17, on the code: after `CreateSession`, for every store, the handle the
map keeps for the new identifier is the element allocated by the literal
`&list.Element{Value: &session}`, which is owned by no list, while the
element at the front of `recentlyUsedSessions` is the other element, the one
allocated by `PushFront`; both carry the same `*Session`. -/
theorem create_stores_detached_handle (m : SessionManager) (id : String) (now : Int) :
    (CreateSession m (id, none) now).2.sessions id = some m.elems.length ∧
    (CreateSession m (id, none) now).2.elems[m.elems.length]?
      = some ⟨m.heap.length, false⟩ ∧
    Front (CreateSession m (id, none) now).2 = some (m.elems.length + 1) ∧
    (CreateSession m (id, none) now).2.elems[m.elems.length + 1]?
      = some ⟨m.heap.length, true⟩ ∧
    Front (CreateSession m (id, none) now).2 ≠ (CreateSession m (id, none) now).2.sessions id := by
  rw [CreateSession_store]
  refine ⟨by simp [mapSet], getElem?_append_length _ _ _, rfl,
    getElem?_append_length_succ _ _ _ _, ?_⟩
  simp [Front, mapSet]

/-! ## Iterations of the cleaner in a row -/

theorem ids_split {m : SessionManager} {ids : List String}
    (hids : listIDs m = ids.map some) {s : Session}
    (hlast : (listSessions m).getLast? = some (some s)) : ∃ ys, ids = ys ++ [s.ID] := by
  have h₁ : (listIDs m).getLast? = some (some s.ID) := by
    rw [listIDs_eq_map_listSessions, List.getLast?_map, hlast]; rfl
  rw [hids, List.getLast?_map] at h₁
  cases hl : ids.getLast? with
  | none => rw [hl] at h₁; exact Option.noConfusion h₁
  | some x =>
    rw [hl] at h₁
    simp only [Option.map_some', Option.some.injEq] at h₁
    subst h₁
    exact List.getLast?_eq_some_iff.mp hl

/-- The cleaner meets a fresh back session: the store afterwards, and the
invariants it keeps. -/
theorem backgroundCleaner_keeps_invariants {m : SessionManager} (hw : WellFormed m)
    (hi : IndexMatchesSequence m) {s : Session}
    (hlast : (listSessions m).getLast? = some (some s)) (now₁ now₂ : Int)
    (hfresh₁ : now₁ - s.lastUsed < 5 * Second) (hfresh₂ : now₂ - s.lastUsed < 5 * Second) :
    ∃ m', backgroundCleaner m now₁ now₂ = some m' ∧
      listSessions m' = some s :: (listSessions m).dropLast ∧
      m'.sessions = m.sessions ∧ m'.heap = m.heap ∧ m'.elems = m.elems ∧
      WellFormed m' ∧ IndexMatchesSequence m' := by
  obtain ⟨back, p, hb, hel, hp⟩ := back_of_last hw hlast
  have hnd := hi.nodup
  have herase := erase_getLast hnd hb
  have hmem : back ∈ m.recentlyUsedSessions := List.mem_of_getLast?_eq_some hb
  have h₁ : ¬ Since now₁ s.lastUsed ≥ 5 * Second := by
    intro hc
    have := (Since_ge_iff _ _).mp hc
    omega
  have hback : (sessionOf m back).map Prod.snd = some s := by
    rw [sessionOf_eq hel hp]; rfl
  have hstore : backgroundCleaner m now₁ now₂ =
      some { m with recentlyUsedSessions := back :: m.recentlyUsedSessions.dropLast } := by
    rw [backgroundCleaner_of_back hb hel hp, if_neg h₁,
      if_pos ((Since_lt_iff _ _).mpr hfresh₂)]
    by_cases hf : Front m = some back
    · rw [if_pos hf]
      have hsingle := eq_singleton_of_head_getLast hnd hf hb
      congr 1
      cases m with
      | mk heap elems sessions rus =>
        simp only at hsingle
        subst hsingle
        rfl
    · rw [if_neg hf, herase]
  have hls : listSessions { m with
      recentlyUsedSessions := back :: m.recentlyUsedSessions.dropLast }
      = some s :: (listSessions m).dropLast := by
    show (back :: m.recentlyUsedSessions.dropLast).map
        (fun e => (sessionOf m e).map Prod.snd) = some s :: (listSessions m).dropLast
    rw [List.map_cons, hback, List.map_dropLast]
    rfl
  refine ⟨_, hstore, hls, rfl, rfl, rfl, ?_, ?_⟩
  · intro e he
    rcases List.mem_cons.mp he with rfl | he
    · exact hw _ hmem
    · exact hw e (List.dropLast_subset _ he)
  · obtain ⟨ids, hids, hidsnd, hkeys⟩ := hi
    obtain ⟨ys, hys⟩ := ids_split hids hlast
    subst hys
    have hnd' := List.nodup_append.mp hidsnd
    refine ⟨s.ID :: ys, ?_, ?_, ?_⟩
    · rw [listIDs_eq_map_listSessions, hls, List.map_cons, List.map_dropLast,
        ← listIDs_eq_map_listSessions, hids, ← List.map_dropLast, List.dropLast_concat]
      rfl
    · refine List.nodup_cons.mpr ⟨?_, hnd'.1⟩
      intro hc
      exact hnd'.2.2 hc (List.mem_singleton_self _)
    · intro id
      show m.sessions id ≠ none ↔ id ∈ s.ID :: ys
      rw [hkeys id]
      simp only [List.mem_append, List.mem_singleton, List.mem_cons]
      tauto

theorem stale_iff (now : Int) (s : Session) : stale now s = true ↔ 5 * Second ≤ now - s.lastUsed := by
  simp [stale]

theorem fresh_iff (now : Int) (s : Session) : fresh now s = true ↔ now - s.lastUsed < 5 * Second := by
  simp [fresh, stale]

/-- After as many iterations as the back part `R` of the sequence has
entries, all at the instant `now`, the stale sessions of `R` are gone from
the sequence and the index, the fresh sessions of `R` stand in their order
before the front part `F`, which was not inspected. -/
theorem sweeps_split (now : Int) (R : List Session) :
    ∀ (F : List Session) (m : SessionManager), WellFormed m → IndexMatchesSequence m →
      listSessions m = (F ++ R).map some →
      ∃ m', sweeps now R.length m = some m' ∧
        listSessions m' = (R.filter (fresh now) ++ F).map some ∧
        m'.heap = m.heap ∧
        (∀ id, m'.sessions id =
          if id ∈ (R.filter (stale now)).map Session.ID then none else m.sessions id) ∧
        WellFormed m' ∧ IndexMatchesSequence m' := by
  induction R using List.reverseRecOn with
  | nil =>
    intro F m hw hi hl
    exact ⟨m, rfl, by simpa using hl, rfl, by simp, hw, hi⟩
  | append_singleton R r ih =>
    intro F m hw hi hl
    have hlast : (listSessions m).getLast? = some (some r) := by
      rw [hl, ← List.append_assoc, List.map_append, List.map_singleton, List.getLast?_concat]
    have hdrop : (listSessions m).dropLast = (F ++ R).map some := by
      rw [hl, ← List.append_assoc, List.map_append, List.map_singleton, List.dropLast_concat]
    have hlen : (R ++ [r]).length = R.length + 1 := by simp
    rw [hlen]
    by_cases hst : stale now r = true
    · obtain ⟨m₁, hb, hls, hsess, _, hheap, hw₁, hi₁⟩ :=
        backgroundCleaner_evicts hw hi hlast now now ((stale_iff now r).mp hst)
      rw [hdrop] at hls
      obtain ⟨m', hsw, hls', hheap', hsess', hw', hi'⟩ := ih F m₁ hw₁ hi₁ hls
      have hfr : fresh now r = false := by simp [fresh, hst]
      refine ⟨m', ?_, ?_, hheap'.trans hheap, ?_, hw', hi'⟩
      · simp only [sweeps, hb, Option.some_bind, hsw]
      · rw [hls']
        simp [List.filter_append, hfr]
      · intro id
        rw [hsess' id, hsess id]
        simp only [List.filter_append, List.map_append, List.mem_append, List.filter_cons,
          hst, if_true, List.filter_nil, List.map_cons, List.map_nil, List.mem_singleton]
        by_cases h₁ : id ∈ (R.filter (stale now)).map Session.ID <;>
          by_cases h₂ : id = r.ID <;> simp [h₁, h₂]
    · have hst' : stale now r = false := by simpa using hst
      have hfr : fresh now r = true := by simp [fresh, hst']
      have hlt := (fresh_iff now r).mp hfr
      obtain ⟨m₁, hb, hls, hsess, hheap, _, hw₁, hi₁⟩ :=
        backgroundCleaner_keeps_invariants hw hi hlast now now hlt hlt
      rw [hdrop] at hls
      have hls₁ : listSessions m₁ = ((r :: F) ++ R).map some := by
        rw [hls]; simp
      obtain ⟨m', hsw, hls', hheap', hsess', hw', hi'⟩ := ih (r :: F) m₁ hw₁ hi₁ hls₁
      refine ⟨m', ?_, ?_, hheap'.trans hheap, ?_, hw', hi'⟩
      · simp only [sweeps, hb, Option.some_bind, hsw]
      · rw [hls']
        simp [List.filter_append, hfr]
      · intro id
        rw [hsess' id, hsess, List.filter_append]
        have hnil : List.filter (stale now) [r] = [] := by
          rw [List.filter_cons, hst']; rfl
        rw [hnil, List.append_nil]

theorem IndexMatchesSequence.sessions_allocated {m : SessionManager}
    (hi : IndexMatchesSequence m) : ∃ L : List Session, listSessions m = L.map some := by
  obtain ⟨ids, hids, _, _⟩ := hi
  refine ⟨(listSessions m).reduceOption, (map_some_reduceOption _ ?_).symm⟩
  intro x hx hc
  subst hc
  have : (none : Option String) ∈ listIDs m := by
    rw [listIDs_eq_map_listSessions]
    exact List.mem_map.mpr ⟨none, hx, rfl⟩
  rw [hids] at this
  simp at this

/-- C18: on a store whose list is well formed and which satisfies the
index/sequence invariant, the sequence carries sessions `L`, front first.
For every `k` up to the number `n` of sessions, `k` iterations of the cleaner
in a row at the instant `now` leave the first `n - k` entries in place,
preceded by the fresh ones among the last `k` entries in their order: the
iterations inspect the entries one by one from the back, each once.  After
`n` iterations the sequence carries exactly the fresh sessions of `L` in
their order, the index has lost exactly the identifiers of the stale
sessions of `L`, the sessions are untouched and the invariants hold. -/
theorem sweeper_visits_every_entry (m : SessionManager) (now : Int) (hw : WellFormed m)
    (hi : IndexMatchesSequence m) :
    ∃ L : List Session, listSessions m = L.map some ∧
      (∀ k, k ≤ L.length → ∃ m', sweeps now k m = some m' ∧
        listSessions m' =
          ((L.drop (L.length - k)).filter (fresh now) ++ L.take (L.length - k)).map some) ∧
      ∃ m', sweeps now L.length m = some m' ∧
        listSessions m' = (L.filter (fresh now)).map some ∧
        (∀ id, m'.sessions id =
          if id ∈ (L.filter (stale now)).map Session.ID then none else m.sessions id) ∧
        m'.heap = m.heap ∧ WellFormed m' ∧ IndexMatchesSequence m' := by
  obtain ⟨L, hL⟩ := hi.sessions_allocated
  refine ⟨L, hL, ?_, ?_⟩
  · intro k hk
    have hlen : (L.drop (L.length - k)).length = k := by
      rw [List.length_drop]; omega
    have hsplit : listSessions m
        = (L.take (L.length - k) ++ L.drop (L.length - k)).map some := by
      rw [List.take_append_drop]; exact hL
    obtain ⟨m', hsw, hls, _⟩ :=
      sweeps_split now (L.drop (L.length - k)) (L.take (L.length - k)) m hw hi hsplit
    rw [hlen] at hsw
    exact ⟨m', hsw, hls⟩
  · obtain ⟨m', hsw, hls, hheap, hsess, hw', hi'⟩ :=
      sweeps_split now L [] m hw hi (by simpa using hL)
    exact ⟨m', hsw, by simpa using hls, hsess, hheap, hw', hi'⟩

theorem sweeper_visits_every_entry_witness :
    WellFormed sampleStore ∧ IndexMatchesSequence sampleStore ∧
    ∃ L : List Session, listSessions sampleStore = L.map some ∧
      (∀ k, k ≤ L.length → ∃ m', sweeps 5500000000 k sampleStore = some m' ∧
        listSessions m' =
          ((L.drop (L.length - k)).filter (fresh 5500000000)
            ++ L.take (L.length - k)).map some) ∧
      ∃ m', sweeps 5500000000 L.length sampleStore = some m' ∧
        listSessions m' = (L.filter (fresh 5500000000)).map some ∧
        (∀ id, m'.sessions id =
          if id ∈ (L.filter (stale 5500000000)).map Session.ID then none
          else sampleStore.sessions id) ∧
        m'.heap = sampleStore.heap ∧ WellFormed m' ∧ IndexMatchesSequence m' :=
  (Reach.run [.create ("a", none) 0, .create ("b", none) 1] (by decide)).elim fun _ hV =>
    ⟨hV.wellFormed, hV.indexMatchesSequence,
      sweeper_visits_every_entry sampleStore 5500000000 hV.wellFormed
        hV.indexMatchesSequence⟩

/-! ## Sessions that leave the store -/

theorem Reach.step_absent {m : SessionManager} {U : List String} (h : Reach m U)
    {id : String} (hU : id ∈ U) (op : Op) (hfresh : ∀ i ∈ createdIDs [op], i ∉ U)
    (habs : m.sessions id = none) : (SessionCleaner.step m op).sessions id = none := by
  cases op with
  | create gen now =>
    obtain ⟨id', err⟩ := gen
    cases err with
    | some e => exact habs
    | none =>
      have hne : id ≠ id' := by
        intro hc
        exact hfresh id' (by simp [createdIDs]) (hc ▸ hU)
      simp only [SessionCleaner.step]
      rw [CreateSession_store]
      simp [mapSet, hne, habs]
  | get id' => rw [step_get]; exact habs
  | update id' data now =>
    cases hk : m.sessions id' with
    | none =>
      have : SessionCleaner.step m (.update id' data now) = m := by
        simp [SessionCleaner.step, UpdateSessionData, hk]
      rw [this]; exact habs
    | some e₀ =>
      obtain ⟨p', s', _, _, _, hu⟩ := UpdateSessionData_of_reach h hk data now
      simp only [SessionCleaner.step, hu, Option.map_some', Option.getD_some]
      exact habs
  | sweep now₁ now₂ =>
    simp only [SessionCleaner.step]
    cases hb : Back m with
    | none =>
      rw [backgroundCleaner_of_nil (List.getLast?_eq_none_iff.mp hb)]
      exact habs
    | some back =>
      obtain ⟨pb, sb, helb, hpb, _⟩ := h.owned back (List.mem_of_getLast?_eq_some hb)
      rw [backgroundCleaner_of_back hb helb hpb]
      split_ifs
      · simp [mapDelete, habs]
      · exact habs
      · exact habs
      · exact habs

theorem Reach.runFrom_absent {m : SessionManager} {U : List String} (h : Reach m U)
    {id : String} (hU : id ∈ U) (ops : List Op) (hn : (createdIDs ops).Nodup)
    (hfresh : ∀ i ∈ createdIDs ops, i ∉ U) (habs : m.sessions id = none) :
    ∃ V, Reach (SessionCleaner.runFrom m ops) V ∧
      (SessionCleaner.runFrom m ops).sessions id = none := by
  induction ops generalizing m U with
  | nil => exact ⟨U, h, habs⟩
  | cons op ops ih =>
    rw [createdIDs_cons] at hn hfresh
    have hn' := List.nodup_append.mp hn
    have hf₁ : ∀ i ∈ createdIDs [op], i ∉ U := fun i hi => hfresh i (List.mem_append_left _ hi)
    exact ih (h.step op hf₁) (List.mem_append_right _ hU) hn'.2.1 (by
        intro i hi hc
        rcases List.mem_append.mp hc with hc | hc
        · exact hn'.2.2 hc hi
        · exact hfresh i (List.mem_append_right _ hi) hc)
      (h.step_absent hU op hf₁ habs)

/-- A session with the stamp `T` somewhere in the sequence, after one call
that is not an update of it: the session has left the index, or it is still
in the sequence with the stamp `T`. -/
theorem Reach.step_somewhere {m : SessionManager} {U : List String} (h : Reach m U)
    {id : String} {T : Int} {d : Nat} (hpos : AtDistance m id T d) (op : Op)
    (hnoupd : ∀ data now, op ≠ .update id data now) :
    (SessionCleaner.step m op).sessions id = none ∨
    ∃ d', AtDistance (SessionCleaner.step m op) id T d' := by
  obtain ⟨A, B, e, p, s, hrus, hel, hp, hID, hT, hB⟩ := hpos
  have hstay : AtDistance m id T d := ⟨A, B, e, p, s, hrus, hel, hp, hID, hT, hB⟩
  have he : e ∈ m.recentlyUsedSessions := by rw [hrus]; simp
  cases op with
  | create gen now =>
    obtain ⟨id', err⟩ := gen
    right
    cases err with
    | some err => exact ⟨d, hstay⟩
    | none =>
      refine ⟨d, ?_⟩
      simp only [SessionCleaner.step]
      rw [CreateSession_store]
      exact ⟨(m.elems.length + 1) :: A, B, e, p, s, by simp [hrus],
        getElem?_append_of_some _ _ _ _ hel, getElem?_append_of_some _ _ _ _ hp, hID, hT, hB⟩
  | get id' =>
    right
    rw [step_get]
    exact ⟨d, hstay⟩
  | update id' data now =>
    right
    refine ⟨d, ?_⟩
    cases hk : m.sessions id' with
    | none =>
      have : SessionCleaner.step m (.update id' data now) = m := by
        simp [SessionCleaner.step, UpdateSessionData, hk]
      rw [this]; exact hstay
    | some e₀ =>
      obtain ⟨p', s', _, hp', hID', hu⟩ := UpdateSessionData_of_reach h hk data now
      simp only [SessionCleaner.step, hu, Option.map_some', Option.getD_some]
      have hne : p ≠ p' := by
        intro hc
        subst hc
        rw [hp] at hp'
        cases hp'
        exact hnoupd data now (by rw [← hID', hID])
      refine ⟨A, B, e, p, s, hrus, hel, ?_, hID, hT, hB⟩
      show (m.heap.set p' _)[p]? = some s
      rw [List.getElem?_set_ne (Ne.symm hne)]; exact hp
  | sweep now₁ now₂ =>
    simp only [SessionCleaner.step]
    cases hb : Back m with
    | none =>
      rw [backgroundCleaner_of_nil (List.getLast?_eq_none_iff.mp hb)]
      exact Or.inr ⟨d, hstay⟩
    | some back =>
      have hbmem : back ∈ m.recentlyUsedSessions := List.mem_of_getLast?_eq_some hb
      obtain ⟨pb, sb, helb, hpb, _⟩ := h.owned back hbmem
      rw [backgroundCleaner_of_back hb helb hpb]
      split_ifs with h₁ h₂ h₃
      · by_cases hc : e = back
        · left
          subst hc
          rw [hel] at helb
          simp only [Option.some.injEq, Element.mk.injEq, and_true] at helb
          subst helb
          rw [hp] at hpb
          cases hpb
          simp [mapDelete, hID]
        · right
          obtain ⟨A', B', hAB⟩ := List.append_of_mem ((h.nodup.mem_erase_iff).mpr ⟨hc, he⟩)
          refine ⟨B'.length, A', B', e, p, s, hAB, ?_, hp, hID, hT, rfl⟩
          show (m.elems.set back ⟨pb, false⟩)[e]? = some ⟨p, true⟩
          rw [List.getElem?_set_ne (Ne.symm hc)]; exact hel
      · exact Or.inr ⟨d, hstay⟩
      · right
        have hmem' : e ∈ back :: m.recentlyUsedSessions.erase back := by
          by_cases hc : e = back
          · subst hc; exact List.mem_cons_self _ _
          · exact List.mem_cons_of_mem _ ((h.nodup.mem_erase_iff).mpr ⟨hc, he⟩)
        obtain ⟨A', B', hAB⟩ := List.append_of_mem hmem'
        exact ⟨B'.length, A', B', e, p, s, hAB, hel, hp, hID, hT, rfl⟩
      · exact Or.inr ⟨d, hstay⟩

theorem AtDistance.lt_length {m : SessionManager} {id : String} {T : Int} {d : Nat}
    (h : AtDistance m id T d) : d < (listSessions m).length := by
  obtain ⟨A, B, e, p, s, hrus, _, _, _, _, hB⟩ := h
  simp only [listSessions, List.length_map, hrus, List.length_append, List.length_cons]
  omega

/-- The session is gone, or still somewhere in the sequence with the stamp
`T`, after any calls that do not update it. -/
theorem Reach.runFrom_somewhere {m : SessionManager} {U : List String} (h : Reach m U)
    {id : String} {T : Int} {d : Nat} (hpos : AtDistance m id T d)
    (ops : List Op) (hn : (createdIDs ops).Nodup) (hfresh : ∀ i ∈ createdIDs ops, i ∉ U)
    (hnoupd : ∀ data now, Op.update id data now ∉ ops) :
    ∃ V, Reach (SessionCleaner.runFrom m ops) V ∧
      (∀ i, i ∈ V ↔ i ∈ createdIDs ops ∨ i ∈ U) ∧
      ((SessionCleaner.runFrom m ops).sessions id = none ∨
        ∃ d', AtDistance (SessionCleaner.runFrom m ops) id T d') := by
  induction ops generalizing m U d with
  | nil => exact ⟨U, h, by simp [createdIDs], Or.inr ⟨d, hpos⟩⟩
  | cons op ops ih =>
    rw [createdIDs_cons] at hn hfresh
    have hn' := List.nodup_append.mp hn
    have hf₁ : ∀ i ∈ createdIDs [op], i ∉ U := fun i hi => hfresh i (List.mem_append_left _ hi)
    have hf₂ : ∀ i ∈ createdIDs ops, i ∉ createdIDs [op] ++ U := by
      intro i hi hc
      rcases List.mem_append.mp hc with hc | hc
      · exact hn'.2.2 hc hi
      · exact hfresh i (List.mem_append_right _ hi) hc
    have h₁ := h.step op hf₁
    have hmemV : ∀ V : List String,
        (∀ i, i ∈ V ↔ i ∈ createdIDs ops ∨ i ∈ createdIDs [op] ++ U) →
        ∀ i, i ∈ V ↔ i ∈ createdIDs (op :: ops) ∨ i ∈ U := by
      intro V hV i
      rw [hV i, createdIDs_cons op ops]
      simp only [List.mem_append]
      tauto
    rcases h.step_somewhere hpos op
        (fun data now hc => hnoupd data now (hc ▸ List.mem_cons_self _ _)) with
      habs | ⟨d', hpos'⟩
    · obtain ⟨V, hV, hmem⟩ := h₁.runFrom ops hn'.2.1 hf₂
      have hU₁ : id ∈ createdIDs [op] ++ U := by
        obtain ⟨A, B, e, p, s, hrus, hel, hp, hID, _⟩ := hpos
        obtain ⟨p', s', hel', hp', hU', _⟩ := h.owned e (by rw [hrus]; simp)
        rw [hel] at hel'
        simp only [Option.some.injEq, Element.mk.injEq, and_true] at hel'
        subst hel'
        rw [hp] at hp'
        cases hp'
        exact List.mem_append_right _ (hID ▸ hU')
      obtain ⟨W, hW, habs'⟩ := h₁.runFrom_absent hU₁ ops hn'.2.1 hf₂ habs
      exact ⟨V, hV, hmemV V hmem, Or.inl habs'⟩
    · obtain ⟨V, hV, hmem, hres⟩ := ih h₁ hpos' hn'.2.1 hf₂
        (fun data now hc => hnoupd data now (List.mem_cons_of_mem _ hc))
      exact ⟨V, hV, hmemV V hmem, hres⟩

/-! ## Counting the iterations that evict a session -/

theorem weight_pos (T c x : Int) : 1 ≤ weight T c x := by
  unfold weight
  split_ifs <;> omega

theorem weight_le_two (T c x : Int) : weight T c x ≤ 2 := by
  unfold weight
  split_ifs <;> omega

theorem weight_anti {T c c' x : Int} (h : c ≤ c') : weight T c' x ≤ weight T c x := by
  unfold weight
  split_ifs with h₁ h₂ <;> omega

theorem weight_of_late {T c x : Int} (h : T + 7 * Second < x + 5 * Second) :
    weight T c x = 1 := by
  unfold weight
  split_ifs with h₁ <;> omega

theorem weight_of_passed {T c x : Int} (h : x + 5 * Second ≤ c) : weight T c x = 1 := by
  unfold weight
  split_ifs with h₁ <;> omega

theorem weight_of_between {T c x : Int} (h₁ : c < x + 5 * Second)
    (h₂ : x + 5 * Second ≤ T + 7 * Second) : weight T c x = 2 := by
  unfold weight
  split_ifs with h₃ <;> omega

theorem potential_cons (m : SessionManager) (T c : Int) (b : Nat) (B : List Nat) :
    potential m T c (b :: B) = weight T c (stampOf m b) + potential m T c B := by
  simp [potential]

theorem potential_concat (m : SessionManager) (T c : Int) (B : List Nat) (b : Nat) :
    potential m T c (B ++ [b]) = potential m T c B + weight T c (stampOf m b) := by
  simp [potential]

theorem potential_le {m m' : SessionManager} {T c c' : Int} {B : List Nat}
    (h : ∀ b ∈ B, weight T c' (stampOf m' b) ≤ weight T c (stampOf m b)) :
    potential m' T c' B ≤ potential m T c B := by
  induction B with
  | nil => simp [potential]
  | cons b B ih =>
    rw [potential_cons, potential_cons]
    exact Nat.add_le_add (h b (List.mem_cons_self _ _))
      (ih fun x hx => h x (List.mem_cons_of_mem _ hx))

theorem potential_le_two_mul (m : SessionManager) (T c : Int) (B : List Nat) :
    potential m T c B ≤ 2 * B.length := by
  induction B with
  | nil => simp [potential]
  | cons b B ih =>
    rw [potential_cons, List.length_cons]
    have := weight_le_two T c (stampOf m b)
    omega

theorem stampOf_eq {m : SessionManager} {e p : Nat} {b : Bool} {s : Session}
    (hel : m.elems[e]? = some ⟨p, b⟩) (hp : m.heap[p]? = some s) :
    stampOf m e = s.lastUsed := by
  simp [stampOf, sessionOf_eq hel hp]

theorem AtDistance.behind {m : SessionManager} {id : String} {T : Int} {d : Nat}
    (h : AtDistance m id T d) (c : Int) : Behind m id T c (2 * d) := by
  obtain ⟨A, B, e, p, s, hrus, hel, hp, hID, hT, hB⟩ := h
  exact ⟨A, B, e, p, s, hrus, hel, hp, hID, hT, hB ▸ potential_le_two_mul m T c B⟩

theorem sweepCount_cons (op : Op) (ops : List Op) :
    sweepCount (op :: ops) = sweepCount [op] + sweepCount ops := by
  cases op <;> simp [sweepCount]

/-- One call between `T` plus 5 seconds and `T` plus 7 seconds, on a store
where the session `id` has the stamp `T` and the entries behind it can take
up `k` cleaner iterations.  The call is not an update of that session, the
clock has reached `c` and the call reads it at `c` or later.  Afterwards the
session has left the index, or the entries behind it can take up `k'`
iterations from an instant `c'` the clock has reached, and a cleaner
iteration makes `k'` smaller than `k`. -/
theorem Reach.step_behind {m : SessionManager} {U : List String} (h : Reach m U)
    {id : String} {T c : Int} {k : Nat} (hb : Behind m id T c k) (op : Op)
    (hnoupd : ∀ data now, op ≠ .update id data now)
    (hc : T + 5 * Second ≤ c)
    (hread : ∀ t ∈ op.times, c ≤ t ∧ t ≤ T + 7 * Second)
    (hord : ∀ now₁ now₂, op = .sweep now₁ now₂ → now₁ ≤ now₂) :
    (SessionCleaner.step m op).sessions id = none ∨
    ∃ c' k', Behind (SessionCleaner.step m op) id T c' k' ∧
      (c' = c ∨ c' ∈ op.times) ∧ c ≤ c' ∧ k' + sweepCount [op] ≤ k := by
  have hS : Second = 1000000000 := rfl
  obtain ⟨A, B, e, p, s, hrus, hel, hp, hID, hT, hpot⟩ := hb
  have hstay : Behind m id T c k := ⟨A, B, e, p, s, hrus, hel, hp, hID, hT, hpot⟩
  have hBmem : ∀ b ∈ B, b ∈ m.recentlyUsedSessions := by
    intro b hb
    rw [hrus]
    exact List.mem_append_right _ (List.mem_cons_of_mem _ hb)
  cases op with
  | create gen now =>
    obtain ⟨id', err⟩ := gen
    right
    cases err with
    | some err => exact ⟨c, k, hstay, Or.inl rfl, le_refl _, by simp [sweepCount]⟩
    | none =>
      refine ⟨c, k, ?_, Or.inl rfl, le_refl _, by simp [sweepCount]⟩
      simp only [SessionCleaner.step]
      rw [CreateSession_store]
      refine ⟨(m.elems.length + 1) :: A, B, e, p, s, by simp [hrus],
        getElem?_append_of_some _ _ _ _ hel, getElem?_append_of_some _ _ _ _ hp, hID, hT,
        le_trans (potential_le ?_) hpot⟩
      intro b hb
      obtain ⟨pb, sb, helb, hpb, _⟩ := h.owned b (hBmem b hb)
      rw [stampOf_eq helb hpb, stampOf_eq (getElem?_append_of_some _ _ _ _ helb)
        (getElem?_append_of_some _ _ _ _ hpb)]
  | get id' =>
    right
    rw [step_get]
    exact ⟨c, k, hstay, Or.inl rfl, le_refl _, by simp [sweepCount]⟩
  | update id' data now =>
    right
    refine ⟨c, k, ?_, Or.inl rfl, le_refl _, by simp [sweepCount]⟩
    cases hk : m.sessions id' with
    | none =>
      have : SessionCleaner.step m (.update id' data now) = m := by
        simp [SessionCleaner.step, UpdateSessionData, hk]
      rw [this]; exact hstay
    | some e₀ =>
      obtain ⟨p', s', _, hp', hID', hu⟩ := UpdateSessionData_of_reach h hk data now
      simp only [SessionCleaner.step, hu, Option.map_some', Option.getD_some]
      have hne : p ≠ p' := by
        intro hc'
        subst hc'
        rw [hp] at hp'
        cases hp'
        exact hnoupd data now (by rw [← hID', hID])
      have hnow := hread now (by simp [Op.times])
      refine ⟨A, B, e, p, s, hrus, hel, ?_, hID, hT, le_trans (potential_le ?_) hpot⟩
      · show (m.heap.set p' _)[p]? = some s
        rw [List.getElem?_set_ne (Ne.symm hne)]; exact hp
      · intro b hb
        obtain ⟨pb, sb, helb, hpb, _⟩ := h.owned b (hBmem b hb)
        by_cases hpp : pb = p'
        · subst hpp
          have hnew : stampOf { m with heap := m.heap.set pb { s' with lastUsed := now } } b
              = now :=
            stampOf_eq (m := { m with heap := m.heap.set pb { s' with lastUsed := now } })
              (b := true) helb (heap_set_same _ hpb)
          rw [hnew, weight_of_late (by omega)]
          exact weight_pos _ _ _
        · have hsame : stampOf { m with heap := m.heap.set p' { s' with lastUsed := now } } b
              = sb.lastUsed := by
            refine stampOf_eq
              (m := { m with heap := m.heap.set p' { s' with lastUsed := now } })
              (b := true) helb ?_
            show (m.heap.set p' _)[pb]? = some sb
            rw [List.getElem?_set_ne (Ne.symm hpp)]; exact hpb
          rw [hsame, stampOf_eq helb hpb]
  | sweep now₁ now₂ =>
    have hr₁ := hread now₁ (by simp [Op.times])
    have hr₂ := hread now₂ (by simp [Op.times])
    have ho := hord now₁ now₂ rfl
    simp only [SessionCleaner.step]
    rcases List.eq_nil_or_concat B with hnil | ⟨B', b, hcat⟩
    · left
      subst hnil
      have hback : Back m = some e := by
        unfold Back
        rw [hrus, List.getLast?_concat]
      rw [backgroundCleaner_of_back hback hel hp,
        if_pos ((Since_ge_iff _ _).mpr (by rw [hT]; omega))]
      simp [mapDelete, hID]
    · right
      have hcat' : B = B' ++ [b] := by rw [hcat]; simp
      have hrus' : m.recentlyUsedSessions = (A ++ e :: B') ++ [b] := by
        rw [hrus, hcat']; simp
      have hback : Back m = some b := by
        unfold Back
        rw [hrus', List.getLast?_concat]
      have hbmem : b ∈ m.recentlyUsedSessions := List.mem_of_getLast?_eq_some hback
      have hdrop : m.recentlyUsedSessions.erase b = A ++ e :: B' := by
        rw [erase_getLast h.nodup hback, hrus', List.dropLast_concat]
      have hne : e ≠ b := by
        intro hc'
        subst hc'
        have hnd := h.nodup
        rw [hrus'] at hnd
        exact (List.nodup_append.mp hnd).2.2 (by simp) (List.mem_singleton_self _)
      obtain ⟨pb, sb, helb, hpb, _⟩ := h.owned b hbmem
      have hsplit : potential m T c B' + weight T c sb.lastUsed ≤ k := by
        rw [← stampOf_eq helb hpb, ← potential_concat, ← hcat']
        exact hpot
      have hw₁ := weight_pos T c sb.lastUsed
      have hB'mem : ∀ x ∈ B', x ∈ B := by
        intro x hx
        rw [hcat']
        exact List.mem_append_left _ hx
      rw [backgroundCleaner_of_back hback helb hpb]
      split_ifs with h₁ h₂ h₃ <;> simp only [Option.getD_some]
      · have hle : potential { m with
            elems := m.elems.set b ⟨pb, false⟩
            recentlyUsedSessions := m.recentlyUsedSessions.erase b
            sessions := mapDelete m.sessions sb.ID } T now₂ B' ≤ potential m T c B' := by
          apply potential_le
          intro x _
          have hst : stampOf { m with
              elems := m.elems.set b ⟨pb, false⟩
              recentlyUsedSessions := m.recentlyUsedSessions.erase b
              sessions := mapDelete m.sessions sb.ID } x = stampOf m x := by
            unfold stampOf
            rw [sessionOf_set_flag m helb]
          rw [hst]
          exact weight_anti (by omega)
        refine ⟨now₂, _, ⟨A, B', e, p, s, hdrop, ?_, hp, hID, hT, le_refl _⟩,
          Or.inr (by simp [Op.times]), by omega, ?_⟩
        · show (m.elems.set b ⟨pb, false⟩)[e]? = some ⟨p, true⟩
          rw [List.getElem?_set_ne (Ne.symm hne)]; exact hel
        · simp only [sweepCount]
          omega
      · exfalso
        have hsingle := eq_singleton_of_head_getLast h.nodup h₃ hback
        rw [hrus'] at hsingle
        have := congrArg List.length hsingle
        simp at this
        omega
      · have hle : potential { m with
            recentlyUsedSessions := b :: m.recentlyUsedSessions.erase b } T now₂ B'
            ≤ potential m T c B' := by
          apply potential_le
          intro x _
          exact weight_anti (by omega)
        refine ⟨now₂, _, ⟨b :: A, B', e, p, s, by simp [hdrop], hel, hp, hID, hT, le_refl _⟩,
          Or.inr (by simp [Op.times]), by omega, ?_⟩
        simp only [sweepCount]
        omega
      · have h₄ : now₁ - sb.lastUsed < 5 * Second := by
          by_contra hc'
          exact h₁ ((Since_ge_iff _ _).mpr (by omega))
        have h₅ : 5 * Second ≤ now₂ - sb.lastUsed := by
          by_contra hc'
          exact h₂ ((Since_lt_iff _ _).mpr (by omega))
        have hold : weight T c sb.lastUsed = 2 := weight_of_between (by omega) (by omega)
        have hnew : weight T now₂ sb.lastUsed = 1 := weight_of_passed (by omega)
        have hle : potential m T now₂ B' ≤ potential m T c B' :=
          potential_le fun x _ => weight_anti (by omega)
        have htot : potential m T now₂ B = potential m T now₂ B' + 1 := by
          rw [hcat', potential_concat, stampOf_eq helb hpb, hnew]
        refine ⟨now₂, _, ⟨A, B, e, p, s, hrus, hel, hp, hID, hT, le_refl _⟩,
          Or.inr (by simp [Op.times]), by omega, ?_⟩
        simp only [sweepCount]
        omega

/-- A session with the stamp `T`, never updated again: when the calls made
between `T` plus 5 seconds and `T` plus 7 seconds, under a clock that never
goes back, hold more cleaner iterations than the entries behind the session
can take up, the session has left the index at their end. -/
theorem Reach.runFrom_ceiling {m : SessionManager} {U : List String} (h : Reach m U)
    {id : String} {T c : Int} {k : Nat} (hU : id ∈ U) (hb : Behind m id T c k)
    (ops : List Op) (hn : (createdIDs ops).Nodup) (hfresh : ∀ i ∈ createdIDs ops, i ∉ U)
    (hnoupd : ∀ data now, Op.update id data now ∉ ops)
    (hc : T + 5 * Second ≤ c)
    (hread : ∀ t ∈ clock ops, c ≤ t ∧ t ≤ T + 7 * Second)
    (hmono : (clock ops).Pairwise (· ≤ ·))
    (hmany : k < sweepCount ops) :
    ∃ V, Reach (SessionCleaner.runFrom m ops) V ∧
      (SessionCleaner.runFrom m ops).sessions id = none := by
  induction ops generalizing m U c k with
  | nil => simp [sweepCount] at hmany
  | cons op ops ih =>
    rw [createdIDs_cons] at hn hfresh
    rw [sweepCount_cons] at hmany
    rw [clock_cons] at hread hmono
    have hn' := List.nodup_append.mp hn
    have hmono' := List.pairwise_append.mp hmono
    have hf₁ : ∀ i ∈ createdIDs [op], i ∉ U := fun i hi => hfresh i (List.mem_append_left _ hi)
    have hf₂ : ∀ i ∈ createdIDs ops, i ∉ createdIDs [op] ++ U := by
      intro i hi hc'
      rcases List.mem_append.mp hc' with hc' | hc'
      · exact hn'.2.2 hc' hi
      · exact hfresh i (List.mem_append_right _ hi) hc'
    have h₁ := h.step op hf₁
    have hU₁ : id ∈ createdIDs [op] ++ U := List.mem_append_right _ hU
    have hord : ∀ now₁ now₂, op = .sweep now₁ now₂ → now₁ ≤ now₂ := by
      intro now₁ now₂ hop
      subst hop
      have := hmono'.1
      simp only [Op.times, List.pairwise_cons, List.mem_singleton, forall_eq] at this
      exact this.1
    rcases h.step_behind hb op
        (fun data now hc' => hnoupd data now (hc' ▸ List.mem_cons_self _ _)) hc
        (fun t ht => hread t (List.mem_append_left _ ht)) hord with
      habs | ⟨c', k', hb', hc', hle, hk'⟩
    · exact h₁.runFrom_absent hU₁ ops hn'.2.1 hf₂ habs
    · refine ih h₁ hU₁ hb' hn'.2.1 hf₂
        (fun data now hx => hnoupd data now (List.mem_cons_of_mem _ hx))
        (le_trans hc hle) ?_ hmono'.2.1 (by omega)
      intro t ht
      refine ⟨?_, (hread t (List.mem_append_right _ ht)).2⟩
      rcases hc' with rfl | hc'
      · exact (hread t (List.mem_append_right _ ht)).1
      · exact hmono'.2.2 c' hc' t ht

theorem Reach.mem_of_atDistance {m : SessionManager} {U : List String} (h : Reach m U)
    {id : String} {T : Int} {d : Nat} (hpos : AtDistance m id T d) : id ∈ U := by
  obtain ⟨A, B, e, p, s, hrus, hel, hp, hID, _⟩ := hpos
  obtain ⟨p', s', hel', hp', hU', _⟩ := h.owned e (by rw [hrus]; simp)
  rw [hel] at hel'
  simp only [Option.some.injEq, Element.mk.injEq, and_true] at hel'
  subst hel'
  rw [hp] at hp'
  cases hp'
  exact hID ▸ hU'

theorem Reach.not_in_sequence {m : SessionManager} {U : List String} (h : Reach m U)
    {id : String} (habs : m.sessions id = none) :
    ∀ s, some s ∈ listSessions m → s.ID ≠ id := by
  intro s hs hc
  obtain ⟨e, he, hse⟩ := List.mem_map.mp hs
  obtain ⟨p, t, hel, hp, _, e', hk, _⟩ := h.owned e he
  rw [sessionOf_eq hel hp] at hse
  simp only [Option.map_some', Option.some.injEq] at hse
  subst hse
  rw [hc, habs] at hk
  exact Option.noConfusion hk

theorem behindIn_append_of_not_mem {id : String} {xs : List (Option String)}
    (h : some id ∉ xs) (ys : List (Option String)) :
    behindIn id (xs ++ some id :: ys) = ys.length := by
  induction xs with
  | nil => simp [behindIn]
  | cons x xs ih =>
    have hx : x ≠ some id := fun hc => h (hc ▸ List.mem_cons_self _ _)
    simp only [List.cons_append, behindIn, hx, if_false]
    exact ih fun hc => h (List.mem_cons_of_mem _ hc)

theorem Reach.entriesBehind_eq {m : SessionManager} {U : List String} (h : Reach m U)
    {id : String} {T : Int} {d : Nat} (hpos : AtDistance m id T d) :
    entriesBehind m id = d := by
  obtain ⟨A, B, e, p, s, hrus, hel, hp, hID, _, hB⟩ := hpos
  have he : e ∈ m.recentlyUsedSessions := by rw [hrus]; simp
  have hnd := h.nodup
  rw [hrus] at hnd
  have heA : e ∉ A := fun hc =>
    (List.nodup_append.mp hnd).2.2 hc (List.mem_cons_self _ _)
  have hge : ((sessionOf m e).map Prod.snd).map Session.ID = some id := by
    rw [sessionOf_eq hel hp]
    simp [hID]
  have hnot : some id ∉ A.map fun x => ((sessionOf m x).map Prod.snd).map Session.ID := by
    intro hc
    obtain ⟨a, ha, hga⟩ := List.mem_map.mp hc
    have hamem : a ∈ m.recentlyUsedSessions := by
      rw [hrus]; exact List.mem_append_left _ ha
    obtain ⟨pa, sa, hela, hpa, _⟩ := h.owned a hamem
    rw [sessionOf_eq hela hpa] at hga
    simp only [Option.map_some', Option.some.injEq] at hga
    have := h.inj a hamem e he pa sa p s (sessionOf_eq hela hpa) (sessionOf_eq hel hp)
      (hga.trans hID.symm)
    exact heA (this ▸ ha)
  unfold entriesBehind
  rw [listIDs_eq_map, hrus, List.map_append, List.map_cons, hge,
    behindIn_append_of_not_mem hnot, List.length_map, hB]

/-- C12: take any sequence of calls `pre ++ op :: (mid ++ window)` on a new
session manager, with pairwise different generated identifiers and a clock
that never goes back, in which `op` creates the session `id` at the instant
`T` or updates it successfully at `T`, and no later call updates it.  Let
`window` hold the calls made between `T` plus 5 seconds and `T` plus 7
seconds (every clock reading of `window` lies between the two), and let `d`
entries stand between the session and the back of the sequence when `window`
starts.  If the cleaner is scheduled promptly, in that `window` completes at
least `2 * d + 1` iterations, whatever the two clock readings of each
iteration are, then at the end of `window` the session is in neither the
index nor the sequence and `GetSessionData id` returns `ErrSessionNotFound`.
(Two iterations for an entry: an iteration whose two clock readings fall on
either side of the 5-second mark of the back entry leaves the store
unchanged, which happens at most once for an entry in a window of 2 seconds.
With `n` sessions in the sequence, `2 * n - 1` iterations are enough.) -/
theorem eviction_ceiling (pre mid window : List Op) (op : Op) (id : String) (T : Int)
    (hids : (createdIDs (pre ++ op :: (mid ++ window))).Nodup)
    (hclock : ClockMonotone (pre ++ op :: (mid ++ window)))
    (htouch : op = .create (id, none) T ∨
      ∃ data, op = .update id data T ∧
        (UpdateSessionData (run pre) id data T).map Prod.fst = some none)
    (hnoupd : ∀ data now, Op.update id data now ∉ mid ++ window)
    (hwindow : ∀ t ∈ clock window, T + 5 * Second ≤ t ∧ t ≤ T + 7 * Second)
    (hmany : 2 * entriesBehind (run (pre ++ op :: mid)) id + 1 ≤ sweepCount window) :
    (run (pre ++ op :: (mid ++ window))).sessions id = none ∧
    (∀ s, some s ∈ listSessions (run (pre ++ op :: (mid ++ window))) → s.ID ≠ id) ∧
    GetSessionData (run (pre ++ op :: (mid ++ window))) id =
      some ((none, some Error.ErrSessionNotFound), run (pre ++ op :: (mid ++ window))) := by
  rw [createdIDs_append, createdIDs_cons, createdIDs_append] at hids
  have hnd := List.nodup_append.mp hids
  have hnd₁ := List.nodup_append.mp hnd.2.1
  have hnd₂ := List.nodup_append.mp hnd₁.2.1
  have hmono : (clock window).Pairwise (· ≤ ·) := by
    unfold ClockMonotone at hclock
    rw [clock_append, clock_cons, clock_append] at hclock
    have h₂ := (List.pairwise_append.mp hclock).2.1
    have h₃ := (List.pairwise_append.mp h₂).2.1
    exact (List.pairwise_append.mp h₃).2.1
  obtain ⟨V, hV, hVmem⟩ := Reach.new.runFrom pre hnd.1 (by simp)
  have hVpre : ∀ i, i ∈ V → i ∈ createdIDs pre := by
    intro i hi
    rcases (hVmem i).mp hi with h | h
    · exact h
    · cases h
  have hf₁ : ∀ i ∈ createdIDs [op], i ∉ V := fun i hi hc =>
    hnd.2.2 (hVpre i hc) (List.mem_append_left _ hi)
  have h₁ := hV.step op hf₁
  have hpos : ∃ d, AtDistance (step (runFrom NewSessionManager pre) op) id T d := by
    rcases htouch with rfl | ⟨data, rfl, hok⟩
    · simp only [step]
      rw [CreateSession_store]
      exact ⟨_, [], _, _, _, ⟨id, [], T⟩, rfl, getElem?_append_length_succ _ _ _ _,
        getElem?_append_length _ _ _, rfl, rfl, rfl⟩
    · cases hk : (runFrom NewSessionManager pre).sessions id with
      | none =>
        exfalso
        simp [run, UpdateSessionData, hk] at hok
      | some e' =>
        obtain ⟨p, s, hel, hp, hID, hu⟩ := UpdateSessionData_of_reach hV hk data T
        obtain ⟨p', s', hel', hp', _, e, he, hele⟩ := hV.index id e' hk
        obtain ⟨A, B, hAB⟩ := List.append_of_mem he
        simp only [step, hu, Option.map_some', Option.getD_some]
        have hpp : p' = p := by
          rw [hel] at hel'
          simp only [Option.some.injEq, Element.mk.injEq, and_true] at hel'
          exact hel'.symm
        subst hpp
        exact ⟨_, A, B, e, p', { s with lastUsed := T }, hAB, hele, heap_set_same _ hp,
          hID, rfl, rfl⟩
  obtain ⟨d, hpos⟩ := hpos
  have hU₁ := h₁.mem_of_atDistance hpos
  have hf₂ : ∀ i ∈ createdIDs mid, i ∉ createdIDs [op] ++ V := by
    intro i hi hc
    rcases List.mem_append.mp hc with hc | hc
    · exact hnd₁.2.2 hc (List.mem_append_left _ hi)
    · exact hnd.2.2 (hVpre i hc) (List.mem_append_right _ (List.mem_append_left _ hi))
  obtain ⟨W, hW, hWmem, hres⟩ := h₁.runFrom_somewhere hpos mid hnd₂.1 hf₂
    (fun data now hc => hnoupd data now (List.mem_append_left _ hc))
  have hf₃ : ∀ i ∈ createdIDs window, i ∉ W := by
    intro i hi hc
    rcases (hWmem i).mp hc with hc | hc
    · exact hnd₂.2.2 hc hi
    · rcases List.mem_append.mp hc with hc | hc
      · exact hnd₁.2.2 hc (List.mem_append_right _ hi)
      · exact hnd.2.2 (hVpre i hc)
          (List.mem_append_right _ (List.mem_append_right _ hi))
  have hUW : id ∈ W := (hWmem id).mpr (Or.inr hU₁)
  have hrun : run (pre ++ op :: (mid ++ window))
      = runFrom (runFrom (step (runFrom NewSessionManager pre) op) mid) window := by
    simp [run, runFrom, List.foldl_append]
  have hrun' : run (pre ++ op :: mid)
      = runFrom (step (runFrom NewSessionManager pre) op) mid := by
    simp [run, runFrom, List.foldl_append]
  rw [hrun'] at hmany
  have hend : ∃ X, Reach (runFrom (runFrom (step (runFrom NewSessionManager pre) op) mid)
        window) X ∧
      (runFrom (runFrom (step (runFrom NewSessionManager pre) op) mid) window).sessions id
        = none := by
    rcases hres with habs | ⟨d', hpos'⟩
    · exact hW.runFrom_absent hUW window hnd₂.2.1 hf₃ habs
    · have hlt := hW.entriesBehind_eq hpos'
      exact hW.runFrom_ceiling hUW (hpos'.behind (T + 5 * Second)) window hnd₂.2.1 hf₃
        (fun data now hc => hnoupd data now (List.mem_append_right _ hc)) (le_refl _)
        hwindow hmono (by omega)
  obtain ⟨X, hX, habs⟩ := hend
  rw [hrun]
  refine ⟨habs, hX.not_in_sequence habs, ?_⟩
  simp [GetSessionData, habs]

theorem eviction_ceiling_witness :
    (createdIDs ([.create ("s1", none) 0, .create ("s2", none) 500000000] ++
      .update "s1" [("website", "longhoang.de")] 1000000000 ::
        ([.update "s2" [] 1050000000, .sweep 3000000000 3000000100] ++
          [.sweep 6000000000 6100000000, .sweep 6200000000 6300000000, .get "s2",
            .sweep 6400000000 6500000000, .sweep 6600000000 6700000000]))).Nodup ∧
    ClockMonotone ([.create ("s1", none) 0, .create ("s2", none) 500000000] ++
      .update "s1" [("website", "longhoang.de")] 1000000000 ::
        ([.update "s2" [] 1050000000, .sweep 3000000000 3000000100] ++
          [.sweep 6000000000 6100000000, .sweep 6200000000 6300000000, .get "s2",
            .sweep 6400000000 6500000000, .sweep 6600000000 6700000000])) ∧
    (UpdateSessionData (run [.create ("s1", none) 0, .create ("s2", none) 500000000]) "s1"
      [("website", "longhoang.de")] 1000000000).map Prod.fst = some none ∧
    2 * entriesBehind (run ([.create ("s1", none) 0, .create ("s2", none) 500000000] ++
      .update "s1" [("website", "longhoang.de")] 1000000000 ::
        [.update "s2" [] 1050000000, .sweep 3000000000 3000000100])) "s1" + 1
      ≤ sweepCount
          [.sweep 6000000000 6100000000, .sweep 6200000000 6300000000, .get "s2",
            .sweep 6400000000 6500000000, .sweep 6600000000 6700000000] ∧
    (run ([.create ("s1", none) 0, .create ("s2", none) 500000000] ++
      .update "s1" [("website", "longhoang.de")] 1000000000 ::
        ([.update "s2" [] 1050000000, .sweep 3000000000 3000000100] ++
          [.sweep 6000000000 6100000000, .sweep 6200000000 6300000000, .get "s2",
            .sweep 6400000000 6500000000, .sweep 6600000000 6700000000]))).sessions "s1" = none ∧
    (∀ s, some s ∈ listSessions (run ([.create ("s1", none) 0, .create ("s2", none) 500000000] ++
      .update "s1" [("website", "longhoang.de")] 1000000000 ::
        ([.update "s2" [] 1050000000, .sweep 3000000000 3000000100] ++
          [.sweep 6000000000 6100000000, .sweep 6200000000 6300000000, .get "s2",
            .sweep 6400000000 6500000000, .sweep 6600000000 6700000000]))) → s.ID ≠ "s1") ∧
    GetSessionData (run ([.create ("s1", none) 0, .create ("s2", none) 500000000] ++
      .update "s1" [("website", "longhoang.de")] 1000000000 ::
        ([.update "s2" [] 1050000000, .sweep 3000000000 3000000100] ++
          [.sweep 6000000000 6100000000, .sweep 6200000000 6300000000, .get "s2",
            .sweep 6400000000 6500000000, .sweep 6600000000 6700000000]))) "s1" =
      some ((none, some Error.ErrSessionNotFound), run ([.create ("s1", none) 0, .create ("s2", none) 500000000] ++
      .update "s1" [("website", "longhoang.de")] 1000000000 ::
        ([.update "s2" [] 1050000000, .sweep 3000000000 3000000100] ++
          [.sweep 6000000000 6100000000, .sweep 6200000000 6300000000, .get "s2",
            .sweep 6400000000 6500000000, .sweep 6600000000 6700000000]))) :=
  ⟨by decide, by decide, by decide, by decide,
    eviction_ceiling [.create ("s1", none) 0, .create ("s2", none) 500000000]
      [.update "s2" [] 1050000000, .sweep 3000000000 3000000100]
      [.sweep 6000000000 6100000000, .sweep 6200000000 6300000000, .get "s2",
            .sweep 6400000000 6500000000, .sweep 6600000000 6700000000]
      (.update "s1" [("website", "longhoang.de")] 1000000000) "s1" 1000000000
      (by decide) (by decide) (Or.inr ⟨_, rfl, by decide⟩)
      (by
        intro data now h
        simp at h)
      (by
        intro t ht
        have hS : Second = 1000000000 := rfl
        simp only [clock, List.flatMap_cons, Op.times, List.flatMap_nil, List.cons_append,
          List.nil_append, List.append_nil, List.mem_cons, List.mem_singleton,
          List.not_mem_nil, or_false] at ht
        rcases ht with rfl | rfl | rfl | rfl | rfl | rfl | rfl | rfl <;>
          exact ⟨by omega, by omega⟩)
      (by decide)⟩

end SessionCleaner

namespace LimitServiceTime

theorem toInt64_of_range {x : Int} (h₁ : -9223372036854775808 ≤ x)
    (h₂ : x < 9223372036854775808) : toInt64 x = x := by
  unfold toInt64
  omega

/-- C13, on the code: for a user that is not premium, `HandleRequest` returns
false exactly when it refuses the request at once (`TimeUsed` at least 10);
when the `select` takes the case of the ticker it returns true.  For the user
with `TimeUsed` 0 whose timer of 10 seconds fires, the call returns true
after starting the process and without receiving from `processChan`. -/
theorem timer_case_returns_true :
    (∀ (id used elapsed : Int),
      (HandleRequest ⟨id, false, used⟩ ⟨.ticker, elapsed⟩).map Outcome.result = some false
        ↔ 10 ≤ used) ∧
    HandleRequest ⟨1, false, 0⟩ ⟨.ticker, 10000000000⟩ =
      some { result := true, user := ⟨1, false, 10⟩,
             tickers := [10000000000, 10000000000], ticker := some 10000000000,
             started := true, received := false, ran := 10000000000 } := by
  refine ⟨?_, by decide⟩
  intro id used elapsed
  unfold HandleRequest
  by_cases h : 10 ≤ used
  · simp [h]
  · simp only [ge_iff_le, h, and_false, if_false, iff_false]
    cases NewTicker (10 * Second) with
    | none => simp
    | some first =>
      simp only [if_true]
      cases NewTicker (toInt64 ((if 10 ≥ used then toInt64 (10 - used) else 0) * Second)) <;>
        simp

/-- C15: for a premium user, whatever `TimeUsed` is and whatever the
surroundings do, `HandleRequest` creates the one ticker of 10 seconds, starts
the process, returns through the receive from `processChan` and returns
true; the user is charged the whole seconds measured. -/
theorem premium_always_served (id used : Int) (env : Env) :
    HandleRequest ⟨id, true, used⟩ env =
      some { result := true,
             user := ⟨id, true, toInt64 (used + wholeSeconds env.elapsed)⟩,
             tickers := [10 * Second], ticker := some (10 * Second),
             started := true, received := true, ran := env.elapsed } := by
  simp [HandleRequest, NewTicker, Second]

/-- C19: for a user that is not premium with `TimeUsed` not negative.  If
`TimeUsed` is at least 10 the call returns false, creates no ticker, starts
no process and leaves the user as it is.  If `TimeUsed` is below 10 the call
does not panic, the ticker of the `select` has the duration
`(10 - TimeUsed)` seconds, which lies between 1 and 10 seconds, and every
duration handed to `time.NewTicker` is positive. -/
theorem timer_duration_positive (u : User) (env : Env) (hp : u.IsPremium = false)
    (h₀ : 0 ≤ u.TimeUsed) :
    (10 ≤ u.TimeUsed →
      HandleRequest u env = some { result := false, user := u, tickers := [], ticker := none,
                                   started := false, received := false, ran := 0 }) ∧
    (u.TimeUsed < 10 →
      ∃ o, HandleRequest u env = some o ∧
        o.ticker = some ((10 - u.TimeUsed) * Second) ∧
        o.tickers = [10 * Second, (10 - u.TimeUsed) * Second] ∧
        1 * Second ≤ (10 - u.TimeUsed) * Second ∧
        (10 - u.TimeUsed) * Second ≤ 10 * Second ∧
        (∀ d ∈ o.tickers, 0 < d) ∧ o.started = true) := by
  have hS : Second = 1000000000 := rfl
  have hmul : (10 - u.TimeUsed) * Second = (10 - u.TimeUsed) * 1000000000 := by rw [hS]
  constructor
  · intro h
    simp [HandleRequest, hp, h]
  · intro h
    have h₁ : toInt64 (10 - u.TimeUsed) = 10 - u.TimeUsed :=
      toInt64_of_range (by omega) (by omega)
    have h₂ : toInt64 ((10 - u.TimeUsed) * Second) = (10 - u.TimeUsed) * Second :=
      toInt64_of_range (by omega) (by omega)
    have h₃ : ¬ (10 - u.TimeUsed) * Second ≤ 0 := by omega
    have h₄ : ¬ (10 : Int) * Second ≤ 0 := by omega
    have h₅ : ¬ 10 ≤ u.TimeUsed := by omega
    have h₆ : u.TimeUsed ≤ 10 := by omega
    have hpos : ∀ d ∈ [10 * Second, (10 - u.TimeUsed) * Second], 0 < d := by
      intro d hd
      simp only [List.mem_cons, List.mem_singleton, List.not_mem_nil, or_false] at hd
      rcases hd with rfl | rfl <;> omega
    cases hf : env.fired <;>
      simp only [HandleRequest, hp, h₅, NewTicker, h₄, h₆, h₁, h₂, h₃, hf, ge_iff_le,
        and_false, if_false, if_true] <;>
      exact ⟨_, rfl, rfl, rfl, by omega, by omega, hpos, rfl⟩

theorem timer_duration_positive_witness :
    (⟨1, false, 3⟩ : User).IsPremium = false ∧ 0 ≤ (⟨1, false, 3⟩ : User).TimeUsed ∧
    ((10 ≤ (⟨1, false, 3⟩ : User).TimeUsed →
      HandleRequest ⟨1, false, 3⟩ ⟨.processChan, 2500000000⟩ =
        some { result := false, user := ⟨1, false, 3⟩, tickers := [], ticker := none,
               started := false, received := false, ran := 0 }) ∧
    ((⟨1, false, 3⟩ : User).TimeUsed < 10 →
      ∃ o, HandleRequest ⟨1, false, 3⟩ ⟨.processChan, 2500000000⟩ = some o ∧
        o.ticker = some ((10 - (⟨1, false, 3⟩ : User).TimeUsed) * Second) ∧
        o.tickers = [10 * Second, (10 - (⟨1, false, 3⟩ : User).TimeUsed) * Second] ∧
        1 * Second ≤ (10 - (⟨1, false, 3⟩ : User).TimeUsed) * Second ∧
        (10 - (⟨1, false, 3⟩ : User).TimeUsed) * Second ≤ 10 * Second ∧
        (∀ d ∈ o.tickers, 0 < d) ∧ o.started = true)) :=
  ⟨rfl, by decide,
    timer_duration_positive ⟨1, false, 3⟩ ⟨.processChan, 2500000000⟩ rfl (by decide)⟩

/-- C14, on the code: a user that is not premium, starting with `TimeUsed` 0,
makes 12 requests one after the other, each of which ends through
`processChan` after 0.9 seconds, within its timer of 10 seconds.  All 12 are
served, `TimeUsed` is still 0 at the end, and the running time granted is
10.8 seconds, more than 10 seconds. -/
theorem accumulated_limit_exceeded :
    ∃ os, HandleRequests ⟨1, false, 0⟩ (List.replicate 12 ⟨.processChan, 900000000⟩) = some os ∧
      os.length = 12 ∧ (∀ o ∈ os, o.result = true ∧ o.started = true ∧
        o.ticker = some (10 * Second) ∧ o.user.TimeUsed = 0) ∧
      WithinTimers os ∧ totalRan os = 10800000000 ∧ 10 * Second < totalRan os := by
  refine ⟨List.replicate 12
    { result := true, user := ⟨1, false, 0⟩, tickers := [10000000000, 10000000000],
      ticker := some 10000000000, started := true, received := true, ran := 900000000 },
    by decide, by decide, by decide, by decide, by decide, by decide⟩

/-- The conversion through `float64` at work: 0.9 seconds and 1.999999999
seconds lose their fraction, 10 seconds stay 10 seconds, and
16777216.999999999 seconds become 16777217 seconds, because the sum is
rounded to a mantissa of 53 bits before the fraction is dropped. -/
theorem wholeSeconds_values :
    wholeSeconds 900000000 = 0 ∧ wholeSeconds 1999999999 = 1 ∧
    wholeSeconds 10000000000 = 10 ∧ wholeSeconds (-1500000000) = -1 ∧
    wholeSeconds 16777216999999999 = 16777217 ∧
    wholeSeconds 16777216999999998 = 16777216 := by
  decide

end LimitServiceTime
